import Mathlib

/-!
Verification development for the C++ refactoring core of vscode-cmantic:
the symbol-range model (SourceSymbol / CSymbol), the lexical masking based
text transforms, and the position proposal engine (SourceDocument), plus the
updateSignature command.

Documents are modelled as lists of lines (`List String`); positions are
line/character pairs as in the editor API.  Text-level scanning functions
from the source are embedded over `List Char`.  The lexical masking
utilities, the symbol-name normalizer and the scope-string resolver are not
part of the analysed sources; they are modelled from the specification and
are marked as such in their doc comments.
-/

/-- Escape-free names for characters that are awkward to spell in literals. -/
def lbraceChar : Char := Char.ofNat 123

def rbraceChar : Char := Char.ofNat 125

def dquoteChar : Char := Char.ofNat 34

def squoteChar : Char := Char.ofNat 39

def backslashChar : Char := Char.ofNat 92

/-- Whitespace test modelling the JavaScript regex class `\s` for the
characters that occur in source documents. -/
def isSpaceChar (c : Char) : Bool :=
  c = ' ' || c = '\t' || c = '\n' || c = '\r'

/-- Word-character test modelling the JavaScript regex class `\w`
(`[A-Za-z0-9_]`). -/
def isWordChar (c : Char) : Bool :=
  ('a' ≤ c && c ≤ 'z') || ('A' ≤ c && c ≤ 'Z') || ('0' ≤ c && c ≤ '9') || c = '_'

/-- Trailing-whitespace removal, modelling `String.prototype.trimEnd`. -/
def trimEndL (l : List Char) : List Char :=
  (l.reverse.dropWhile isSpaceChar).reverse

/-- Leading-whitespace removal, modelling `String.prototype.trimStart`. -/
def trimStartL (l : List Char) : List Char :=
  l.dropWhile isSpaceChar

/-- Whitespace removal at both ends, modelling `String.prototype.trim`. -/
def trimL (l : List Char) : List Char :=
  trimEndL (trimStartL l)

/-- Substring containment test on character lists, modelling
`String.prototype.includes`. -/
def containsSub (needle : List Char) : List Char → Bool
  | [] => needle.isEmpty
  | c :: rest => needle.isPrefixOf (c :: rest) || containsSub needle rest

/-- Index of the first occurrence of a character at or beyond a start index,
modelling `String.prototype.indexOf(ch, from)` (`none` for `-1`). -/
def idxOfCharFrom (l : List Char) (ch : Char) (start : Nat) : Option Nat :=
  match (l.drop start).findIdx? (fun c => c = ch) with
  | some j => some (start + j)
  | none => none

/-- Index of the first occurrence of a character, modelling
`String.prototype.indexOf(ch)` (`none` for `-1`). -/
def idxOfChar (l : List Char) (ch : Char) : Option Nat :=
  idxOfCharFrom l ch 0

/-- JavaScript `String.prototype.substring(start, end)`: both indices are
clamped to the string length and swapped when given in reverse order. -/
def substringJS (l : List Char) (s e : Nat) : List Char :=
  let s' := min s l.length
  let e' := min e l.length
  if s' ≤ e' then (l.drop s').take (e' - s') else (l.drop e').take (s' - e')

/-- JavaScript `String.prototype.substring(start)` with one argument. -/
def substringFromJS (l : List Char) (s : Nat) : List Char :=
  l.drop (min s l.length)

/-- Split on a separator character, modelling `String.prototype.split(sep)`.
The result is always nonempty. -/
def splitOnCharL (sep : Char) : List Char → List (List Char)
  | [] => [[]]
  | c :: rest =>
    let r := splitOnCharL sep rest
    if c = sep then [] :: r
    else
      match r with
      | [] => [[c]]
      | piece :: pieces => (c :: piece) :: pieces

/-- Join pieces with a newline, inverse of splitting on a newline. -/
def joinNl : List (List Char) → List Char
  | [] => []
  | [piece] => piece
  | piece :: rest => piece ++ '\n' :: joinNl rest

/-- Split on newline characters. -/
def splitOnNl (l : List Char) : List (List Char) :=
  splitOnCharL '\n' l

/-- Scanner mode for comment masking. -/
inductive CommentMode where
  | code
  | lineC
  | blockC
deriving DecidableEq

/-- Modelled from the spec: lexical masking utility for comments
(`util.maskComments`).  Replaces the contents of line and block comments
with equal-length whitespace; when `keep` is true the comment delimiters
themselves stay visible, otherwise they are replaced by spaces as well. -/
def maskCommentsGo (keep : Bool) : CommentMode → List Char → List Char
  | .code, '/' :: '/' :: rest =>
    (if keep then '/' else ' ') :: (if keep then '/' else ' ') :: maskCommentsGo keep .lineC rest
  | .code, '/' :: '*' :: rest =>
    (if keep then '/' else ' ') :: (if keep then '*' else ' ') :: maskCommentsGo keep .blockC rest
  | .code, c :: rest => c :: maskCommentsGo keep .code rest
  | .lineC, '\n' :: rest => '\n' :: maskCommentsGo keep .code rest
  | .lineC, _ :: rest => ' ' :: maskCommentsGo keep .lineC rest
  | .blockC, '*' :: '/' :: rest =>
    (if keep then '*' else ' ') :: (if keep then '/' else ' ') :: maskCommentsGo keep .code rest
  | .blockC, _ :: rest => ' ' :: maskCommentsGo keep .blockC rest
  | _, [] => []

/-- Modelled from the spec: `util.maskComments`. -/
def maskComments (keep : Bool) (l : List Char) : List Char :=
  maskCommentsGo keep .code l

/-- Scanner mode for quote masking; the `Esc` modes record that a backslash
escape was just seen inside a literal. -/
inductive QuoteMode where
  | code
  | dquote
  | dquoteEsc
  | squote
  | squoteEsc
deriving DecidableEq

/-- Modelled from the spec: lexical masking utility for string and character
literals (`util.maskQuotes`).  Replaces quoted contents (with backslash
escape awareness) by equal-length whitespace, keeping the quote delimiters. -/
def maskQuotesGo : QuoteMode → List Char → List Char
  | _, [] => []
  | .code, c :: rest =>
    if c = dquoteChar then c :: maskQuotesGo .dquote rest
    else if c = squoteChar then c :: maskQuotesGo .squote rest
    else c :: maskQuotesGo .code rest
  | .dquote, c :: rest =>
    if c = backslashChar then ' ' :: maskQuotesGo .dquoteEsc rest
    else if c = dquoteChar then c :: maskQuotesGo .code rest
    else ' ' :: maskQuotesGo .dquote rest
  | .dquoteEsc, _ :: rest => ' ' :: maskQuotesGo .dquote rest
  | .squote, c :: rest =>
    if c = backslashChar then ' ' :: maskQuotesGo .squoteEsc rest
    else if c = squoteChar then c :: maskQuotesGo .code rest
    else ' ' :: maskQuotesGo .squote rest
  | .squoteEsc, _ :: rest => ' ' :: maskQuotesGo .squote rest

/-- Modelled from the spec: `util.maskQuotes`. -/
def maskQuotes (l : List Char) : List Char :=
  maskQuotesGo .code l

/-- Modelled from the spec: masking of balanced delimiter groups.  The
contents of every outermost group (including any nested delimiters) are
replaced by equal-length whitespace; the two outermost delimiters stay
visible; unmatched closing delimiters at depth zero stay visible. -/
def maskDelimGroupsGo (op cl : Char) (depth : Nat) : List Char → List Char
  | [] => []
  | c :: rest =>
    if c = op then
      (if depth = 0 then c else ' ') :: maskDelimGroupsGo op cl (depth + 1) rest
    else if c = cl then
      match depth with
      | 0 => c :: maskDelimGroupsGo op cl 0 rest
      | 1 => c :: maskDelimGroupsGo op cl 0 rest
      | d + 2 => ' ' :: maskDelimGroupsGo op cl (d + 1) rest
    else
      (if depth = 0 then c else ' ') :: maskDelimGroupsGo op cl depth rest

/-- Modelled from the spec: `util.maskParentheses`. -/
def maskParentheses (l : List Char) : List Char :=
  maskDelimGroupsGo '(' ')' 0 l

/-- Modelled from the spec: `util.maskBraces`. -/
def maskBraces (l : List Char) : List Char :=
  maskDelimGroupsGo lbraceChar rbraceChar 0 l

/-- Modelled from the spec: `util.maskBrackets`. -/
def maskBrackets (l : List Char) : List Char :=
  maskDelimGroupsGo '[' ']' 0 l

/-- Modelled from the spec: `util.maskAngleBrackets` (best-effort
bracket-depth heuristic for template argument lists). -/
def maskAngleBrackets (l : List Char) : List Char :=
  maskDelimGroupsGo '<' '>' 0 l

/-- Modelled from the spec: `util.maskComparisonOperators`.  Replaces
comparison operators (two-character operators first, then stray angle
brackets) with equal-length whitespace; a plain `=` is not a comparison and
is preserved. -/
def maskComparisonOperators : List Char → List Char
  | '<' :: '=' :: rest => ' ' :: ' ' :: maskComparisonOperators rest
  | '>' :: '=' :: rest => ' ' :: ' ' :: maskComparisonOperators rest
  | '=' :: '=' :: rest => ' ' :: ' ' :: maskComparisonOperators rest
  | '!' :: '=' :: rest => ' ' :: ' ' :: maskComparisonOperators rest
  | '<' :: rest => ' ' :: maskComparisonOperators rest
  | '>' :: rest => ' ' :: maskComparisonOperators rest
  | c :: rest => c :: maskComparisonOperators rest
  | [] => []

/-- Scan for the first `*/` terminator, used to model the block-comment
regex `re_blockComments`; returns the text after the terminator. -/
def dropToBlockEnd : List Char → Option (List Char)
  | [] => none
  | [_] => none
  | c1 :: c2 :: rest =>
    if c1 = '*' && c2 = '/' then some rest else dropToBlockEnd (c2 :: rest)

theorem dropToBlockEnd_length :
    ∀ (l l' : List Char), dropToBlockEnd l = some l' → l'.length < l.length := by
  intro l
  induction l with
  | nil => intro l' h; simp [dropToBlockEnd] at h
  | cons c rest ih =>
    intro l' h
    cases rest with
    | nil => simp [dropToBlockEnd] at h
    | cons c2 rest2 =>
      rw [dropToBlockEnd] at h
      by_cases hc : c = '*' && c2 = '/'
      · rw [if_pos hc] at h
        cases h
        simp
        omega
      · rw [if_neg hc] at h
        have := ih l' h
        simp at this ⊢
        omega

/-- Removal of block comments, modelling
`text.replace(re_blockComments, '')` as used by `CSymbol.isPointer` and
`CSymbol.isConst`; an unterminated block comment does not match the regex
and is kept verbatim.  The scan is driven by a character-count fuel (every
step consumes at least one character, so a fuel of the list length is
enough). -/
def removeBlockCommentsGo : Nat → List Char → List Char
  | 0, l => l
  | _ + 1, [] => []
  | fuel + 1, c :: rest =>
    if c = '/' && rest.head? = some '*' then
      match dropToBlockEnd rest.tail with
      | some rest2 => removeBlockCommentsGo fuel rest2
      | none => c :: rest
    else
      c :: removeBlockCommentsGo fuel rest

def removeBlockComments (l : List Char) : List Char :=
  removeBlockCommentsGo l.length l

/-- A line/character position, as in the editor API (`vscode.Position`). -/
structure Pos where
  line : Nat
  character : Nat
deriving DecidableEq

/-- Strict lexicographic order on positions (`Position.isBefore`). -/
def Pos.lt (a b : Pos) : Prop :=
  a.line < b.line ∨ (a.line = b.line ∧ a.character < b.character)

/-- Lexicographic order on positions (`Position.isBeforeOrEqual`). -/
def Pos.le (a b : Pos) : Prop :=
  a.line < b.line ∨ (a.line = b.line ∧ a.character ≤ b.character)

instance : LT Pos := ⟨Pos.lt⟩

instance : LE Pos := ⟨Pos.le⟩

instance (a b : Pos) : Decidable (a < b) :=
  inferInstanceAs (Decidable (a.line < b.line ∨ (a.line = b.line ∧ a.character < b.character)))

instance (a b : Pos) : Decidable (a ≤ b) :=
  inferInstanceAs (Decidable (a.line < b.line ∨ (a.line = b.line ∧ a.character ≤ b.character)))

/-- Boolean version of `Pos.le`, used as a sort comparator. -/
def posLeB (a b : Pos) : Bool :=
  decide (a ≤ b)

theorem Pos.le_refl (a : Pos) : a ≤ a := Or.inr ⟨rfl, Nat.le_refl _⟩

theorem Pos.lt_imp_le {a b : Pos} (h : a < b) : a ≤ b := by
  rcases h with h | ⟨h1, h2⟩
  · exact Or.inl h
  · exact Or.inr ⟨h1, Nat.le_of_lt h2⟩

theorem Pos.lt_imp_ne {a b : Pos} (h : a < b) : a ≠ b := by
  rcases h with h | ⟨h1, h2⟩ <;> intro he <;> subst he <;> omega

/-- Documents are lists of lines, in the manner of the editor's
`TextDocument` (line/character indexing, text retrieval by range). -/
def lineTextAt (lines : List String) (i : Nat) : List Char :=
  match lines.get? i with
  | some s => s.data
  | none => []

/-- Character at a position, or `none` when the position is at or beyond the
end of its line (or on a nonexistent line). -/
def charAt (lines : List String) (p : Pos) : Option Char :=
  (lineTextAt lines p.line).get? p.character

/-- Offset of a position in the document's text (lines joined by a
one-character end-of-line marker), with the position clamped into the
document as the editor's `TextDocument.offsetAt` does. -/
def offsetAtL : List String → Nat → Nat → Nat
  | [], _, _ => 0
  | [s], 0, c => min c s.length
  | [s], _ + 1, _ => s.length
  | s :: _ :: _, 0, c => min c s.length
  | s :: s2 :: rest, l + 1, c => s.length + 1 + offsetAtL (s2 :: rest) l c

def offsetAt (lines : List String) (p : Pos) : Nat :=
  offsetAtL lines p.line p.character

/-- Position of an offset in the document's text, clamped into the document
as the editor's `TextDocument.positionAt` does. -/
def positionAt : List String → Nat → Pos
  | [], _ => ⟨0, 0⟩
  | [s], off => ⟨0, min off s.length⟩
  | s :: s2 :: rest, off =>
    if off ≤ s.length then ⟨0, off⟩
    else
      let q := positionAt (s2 :: rest) (off - (s.length + 1))
      ⟨q.line + 1, q.character⟩

/-- The document's full text as characters, lines joined by `'\n'`. -/
def docChars : List String → List Char
  | [] => []
  | [s] => s.data
  | s :: s2 :: rest => s.data ++ '\n' :: docChars (s2 :: rest)

/-- Text of a range, modelling `TextDocument.getText(range)` for a
well-ordered range. -/
def getTextL (lines : List String) (a b : Pos) : List Char :=
  ((docChars lines).drop (offsetAt lines a)).take (offsetAt lines b - offsetAt lines a)

def getTextM (lines : List String) (a b : Pos) : String :=
  String.mk (getTextL lines a b)

/-- Count of consecutive semicolons at the head of a character list. -/
def countLeadingSemis : List Char → Nat
  | [] => 0
  | c :: rest => if c = ';' then countLeadingSemis rest + 1 else 0

/-- Statement-end adjustment (`SourceDocument.getEndOfStatement`, also
`util.getEndOfStatement` used by the `CSymbol` constructor): advances the
position past any immediately-following semicolons on its line. -/
def getEndOfStatement (lines : List String) (p : Pos) : Pos :=
  ⟨p.line, p.character + countLeadingSemis ((lineTextAt lines p.line).drop p.character)⟩

theorem countLeadingSemis_get? (l : List Char) : l.get? (countLeadingSemis l) ≠ some ';' := by
  induction l with
  | nil => simp [countLeadingSemis]
  | cons c rest ih =>
    by_cases hc : c = ';'
    · subst hc
      simpa [countLeadingSemis] using ih
    · simp [countLeadingSemis, hc]

theorem countLeadingSemis_take (l : List Char) :
    l.take (countLeadingSemis l) = List.replicate (countLeadingSemis l) ';' := by
  induction l with
  | nil => simp [countLeadingSemis]
  | cons c rest ih =>
    by_cases hc : c = ';'
    · subst hc
      simp [countLeadingSemis, List.replicate_succ, ih]
    · simp [countLeadingSemis, hc]

theorem countLeadingSemis_le_length (l : List Char) : countLeadingSemis l ≤ l.length := by
  induction l with
  | nil => simp [countLeadingSemis]
  | cons c rest ih =>
    by_cases hc : c = ';'
    · subst hc
      simp [countLeadingSemis]
      omega
    · simp [countLeadingSemis, hc]

/-- After the statement-end adjustment the character immediately after the
range end is never a semicolon. -/
theorem charAt_getEndOfStatement (lines : List String) (p : Pos) :
    charAt lines (getEndOfStatement lines p) ≠ some ';' := by
  unfold charAt getEndOfStatement
  simp only
  intro h
  have h2 : ((lineTextAt lines p.line).drop p.character).get?
      (countLeadingSemis ((lineTextAt lines p.line).drop p.character)) = some ';' := by
    rw [List.get?_drop]
    exact h
  exact countLeadingSemis_get? _ h2

theorem maskCommentsGo_length (keep : Bool) :
    ∀ (m : CommentMode) (l : List Char), (maskCommentsGo keep m l).length = l.length := by
  intro m l
  induction m, l using maskCommentsGo.induct keep <;> simp [maskCommentsGo, *]

theorem maskComments_length (keep : Bool) (l : List Char) :
    (maskComments keep l).length = l.length :=
  maskCommentsGo_length keep .code l

theorem maskQuotesGo_length :
    ∀ (l : List Char) (m : QuoteMode), (maskQuotesGo m l).length = l.length := by
  intro l
  induction l with
  | nil => intro m; cases m <;> simp [maskQuotesGo]
  | cons c rest ih =>
    intro m
    cases m <;> simp only [maskQuotesGo, List.length_cons] <;>
      first
        | simp [ih]
        | (split
           · simp [ih]
           · split <;> simp [ih])

theorem maskQuotes_length (l : List Char) : (maskQuotes l).length = l.length :=
  maskQuotesGo_length l .code

theorem maskDelimGroupsGo_length (op cl : Char) :
    ∀ (depth : Nat) (l : List Char), (maskDelimGroupsGo op cl depth l).length = l.length := by
  intro depth l
  induction depth, l using maskDelimGroupsGo.induct op cl <;> simp [maskDelimGroupsGo, *]

theorem maskAngleBrackets_length (l : List Char) : (maskAngleBrackets l).length = l.length :=
  maskDelimGroupsGo_length '<' '>' 0 l

theorem maskComparisonOperators_length :
    ∀ (l : List Char), (maskComparisonOperators l).length = l.length := by
  intro l
  induction l using maskComparisonOperators.induct <;> simp [maskComparisonOperators, *]

theorem trimEndL_length_le (l : List Char) : (trimEndL l).length ≤ l.length := by
  unfold trimEndL
  have := (List.dropWhile_sublist (l := l.reverse) (p := isSpaceChar)).length_le
  simpa using this

theorem Pos.lt_def (a b : Pos) :
    a < b ↔ (a.line < b.line ∨ (a.line = b.line ∧ a.character < b.character)) :=
  Iff.rfl

theorem Pos.le_def (a b : Pos) :
    a ≤ b ↔ (a.line < b.line ∨ (a.line = b.line ∧ a.character ≤ b.character)) :=
  Iff.rfl

theorem Pos.le_trans {a b c : Pos} (h1 : a ≤ b) (h2 : b ≤ c) : a ≤ c := by
  rcases h1 with h1 | ⟨h1, h1c⟩ <;> rcases h2 with h2 | ⟨h2, h2c⟩
  · exact Or.inl (Nat.lt_trans h1 h2)
  · exact Or.inl (h2 ▸ h1)
  · exact Or.inl (h1 ▸ h2)
  · exact Or.inr ⟨h1.trans h2, Nat.le_trans h1c h2c⟩

/-- Offsets are monotone in positions. -/
theorem offsetAtL_mono :
    ∀ (lines : List String) (al ac bl bc : Nat),
      (al < bl ∨ (al = bl ∧ ac ≤ bc)) → offsetAtL lines al ac ≤ offsetAtL lines bl bc := by
  intro lines
  induction lines with
  | nil => intro al ac bl bc _; simp [offsetAtL]
  | cons s rest ih =>
    intro al ac bl bc h
    cases rest with
    | nil =>
      match al, bl, h with
      | 0, 0, h => simp only [offsetAtL]; omega
      | 0, bl + 1, _ => simp only [offsetAtL]; omega
      | al + 1, 0, h => omega
      | al + 1, bl + 1, _ => simp only [offsetAtL]; omega
    | cons s2 rest2 =>
      match al, bl, h with
      | 0, 0, h => simp only [offsetAtL]; omega
      | 0, bl + 1, _ => simp only [offsetAtL]; omega
      | al + 1, 0, h => omega
      | al + 1, bl + 1, h =>
        simp only [offsetAtL]
        have : al < bl ∨ (al = bl ∧ ac ≤ bc) := by omega
        have := ih al ac bl bc this
        omega

theorem offsetAt_mono {lines : List String} {a b : Pos} (h : a ≤ b) :
    offsetAt lines a ≤ offsetAt lines b :=
  offsetAtL_mono lines a.line a.character b.line b.character h

/-- A strictly smaller offset maps to a strictly smaller position. -/
theorem positionAt_lt_of_lt_offsetAtL :
    ∀ (lines : List String) (i pl pc : Nat),
      i < offsetAtL lines pl pc → positionAt lines i < Pos.mk pl pc := by
  intro lines
  induction lines with
  | nil => intro i pl pc h; simp [offsetAtL] at h
  | cons s rest ih =>
    intro i pl pc h
    cases rest with
    | nil =>
      cases pl with
      | zero =>
        simp only [offsetAtL] at h
        have h1 : i < pc := lt_of_lt_of_le h (min_le_left _ _)
        have h2 : i < s.length := lt_of_lt_of_le h (min_le_right _ _)
        simp only [positionAt, Pos.lt_def]
        refine Or.inr ⟨by trivial, ?_⟩
        omega
      | succ pl =>
        simp only [offsetAtL] at h
        simp only [positionAt, Pos.lt_def]
        exact Or.inl (Nat.succ_pos _)
    | cons s2 rest2 =>
      cases pl with
      | zero =>
        simp only [offsetAtL] at h
        have h1 : i < pc := lt_of_lt_of_le h (min_le_left _ _)
        have h2 : i < s.length := lt_of_lt_of_le h (min_le_right _ _)
        simp only [positionAt, if_pos (le_of_lt h2), Pos.lt_def]
        refine Or.inr ⟨by trivial, ?_⟩
        omega
      | succ pl =>
        simp only [offsetAtL] at h
        by_cases hi : i ≤ s.length
        · simp only [positionAt, if_pos hi, Pos.lt_def]
          exact Or.inl (Nat.succ_pos _)
        · simp only [positionAt, if_neg hi]
          have h3 := ih (i - (s.length + 1)) pl pc (by omega)
          rw [Pos.lt_def] at h3 ⊢
          simp only at h3 ⊢
          omega

theorem lineTextAt_nil (i : Nat) : lineTextAt [] i = [] := by
  simp [lineTextAt]

theorem lineTextAt_cons_zero (s : String) (rest : List String) :
    lineTextAt (s :: rest) 0 = s.data := by
  simp [lineTextAt]

theorem lineTextAt_cons_succ (s : String) (rest : List String) (i : Nat) :
    lineTextAt (s :: rest) (i + 1) = lineTextAt rest i := by
  simp [lineTextAt]

/-- Extending a position within its line shifts its offset by the same
amount. -/
theorem offsetAtL_add :
    ∀ (lines : List String) (el ec k : Nat),
      ec + k ≤ (lineTextAt lines el).length →
      offsetAtL lines el (ec + k) = offsetAtL lines el ec + k := by
  intro lines
  induction lines with
  | nil =>
    intro el ec k h
    rw [lineTextAt_nil] at h
    simp only [List.length_nil] at h
    simp only [offsetAtL]
    omega
  | cons s rest ih =>
    intro el ec k h
    cases rest with
    | nil =>
      cases el with
      | zero =>
        rw [lineTextAt_cons_zero] at h
        have hs : s.length = s.data.length := rfl
        simp only [offsetAtL]
        rw [min_eq_left (by omega), min_eq_left (by omega)]
      | succ el =>
        rw [lineTextAt_cons_succ, lineTextAt_nil] at h
        simp only [List.length_nil] at h
        simp only [offsetAtL]
        omega
    | cons s2 rest2 =>
      cases el with
      | zero =>
        rw [lineTextAt_cons_zero] at h
        have hs : s.length = s.data.length := rfl
        simp only [offsetAtL]
        rw [min_eq_left (by omega), min_eq_left (by omega)]
      | succ el =>
        rw [lineTextAt_cons_succ] at h
        simp only [offsetAtL]
        rw [ih el ec k h]
        omega

/-- Dropping a valid position's offset from the document text lands at that
position's character within its line. -/
theorem docChars_drop_offsetAtL :
    ∀ (lines : List String) (el ec : Nat),
      el < lines.length → ec ≤ (lineTextAt lines el).length →
      ∃ tail, (docChars lines).drop (offsetAtL lines el ec) =
        (lineTextAt lines el).drop ec ++ tail := by
  intro lines
  induction lines with
  | nil => intro el ec h; simp at h
  | cons s rest ih =>
    intro el ec hel hec
    cases rest with
    | nil =>
      cases el with
      | zero =>
        rw [lineTextAt_cons_zero] at hec ⊢
        have hs : s.length = s.data.length := rfl
        simp only [offsetAtL, docChars]
        rw [min_eq_left (by omega)]
        exact ⟨[], by simp⟩
      | succ el => simp at hel
    | cons s2 rest2 =>
      cases el with
      | zero =>
        rw [lineTextAt_cons_zero] at hec ⊢
        have hs : s.length = s.data.length := rfl
        simp only [offsetAtL, docChars]
        rw [min_eq_left (by omega)]
        refine ⟨'\n' :: docChars (s2 :: rest2), ?_⟩
        rw [List.drop_append_eq_append_drop]
        have : ec - s.data.length = 0 := by omega
        rw [this]
        simp
      | succ el =>
        rw [lineTextAt_cons_succ] at hec ⊢
        have hel2 : el < (s2 :: rest2).length := by simpa using hel
        obtain ⟨tail, htail⟩ := ih el ec hel2 hec
        refine ⟨tail, ?_⟩
        simp only [offsetAtL, docChars]
        rw [List.drop_append_eq_append_drop]
        have h1 : s.length + 1 + offsetAtL (s2 :: rest2) el ec - s.data.length
            = 1 + offsetAtL (s2 :: rest2) el ec := by
          have hs : s.length = s.data.length := rfl
          omega
        have h2 : s.data.drop (s.length + 1 + offsetAtL (s2 :: rest2) el ec) = [] := by
          apply List.drop_eq_nil_of_le
          have hs : s.length = s.data.length := rfl
          omega
        rw [h1, h2]
        simp only [List.nil_append]
        rw [show 1 + offsetAtL (s2 :: rest2) el ec = offsetAtL (s2 :: rest2) el ec + 1 by omega]
        rw [List.drop_succ_cons]
        exact htail

/-- Central lemma for the statement-end extension: the text of a range whose
end was extended past trailing semicolons is the original text followed by
exactly those semicolons. -/
theorem getTextL_extend_semis (lines : List String) (a e : Pos)
    (hae : offsetAt lines a ≤ offsetAt lines e)
    (hel : e.line < lines.length)
    (hec : e.character ≤ (lineTextAt lines e.line).length) :
    getTextL lines a (getEndOfStatement lines e) =
      getTextL lines a e ++
        List.replicate (countLeadingSemis ((lineTextAt lines e.line).drop e.character)) ';' := by
  set k := countLeadingSemis ((lineTextAt lines e.line).drop e.character) with hk
  have hkle : k ≤ (lineTextAt lines e.line).length - e.character := by
    have := countLeadingSemis_le_length ((lineTextAt lines e.line).drop e.character)
    simpa using this
  have hoff : offsetAt lines (getEndOfStatement lines e) = offsetAt lines e + k := by
    unfold getEndOfStatement offsetAt
    simp only
    exact offsetAtL_add lines e.line e.character k (by omega)
  unfold getTextL
  rw [hoff]
  have harith : offsetAt lines e + k - offsetAt lines a = (offsetAt lines e - offsetAt lines a) + k := by
    omega
  rw [harith, List.take_add]
  congr 1
  have hdd : ((docChars lines).drop (offsetAt lines a)).drop (offsetAt lines e - offsetAt lines a)
      = (docChars lines).drop (offsetAt lines e) := by
    rw [List.drop_drop]
    congr 1
    omega
  rw [hdd]
  obtain ⟨tail, htail⟩ := docChars_drop_offsetAtL lines e.line e.character hel hec
  have htail2 : (docChars lines).drop (offsetAt lines e) =
      (lineTextAt lines e.line).drop e.character ++ tail := htail
  rw [htail2]
  rw [List.take_append_eq_append_take]
  have hlen : k ≤ ((lineTextAt lines e.line).drop e.character).length := by
    simp
    omega
  have h0 : k - ((lineTextAt lines e.line).drop e.character).length = 0 := by omega
  rw [h0]
  simp only [List.take_zero, List.append_nil]
  rw [hk]
  exact countLeadingSemis_take _

/-- Symbol kinds, mirroring the `vscode.SymbolKind` values the source
branches on. -/
inductive SymbolKind where
  | fileK
  | moduleK
  | namespaceK
  | packageK
  | classK
  | methodK
  | propertyK
  | fieldK
  | constructorK
  | enumK
  | interfaceK
  | functionK
  | variableK
  | constantK
  | structK
  | operatorK
  | otherK
deriving DecidableEq

/-- A raw `vscode.DocumentSymbol` as delivered by the document-symbol
provider: name, detail, kind, range, selectionRange and nested children. -/
inductive RawSymbol where
  | mk (name detail : String) (kind : SymbolKind) (range selectionRange : Pos × Pos)
      (children : List RawSymbol)

def RawSymbol.name : RawSymbol → String
  | .mk n _ _ _ _ _ => n

def RawSymbol.detail : RawSymbol → String
  | .mk _ d _ _ _ _ => d

def RawSymbol.kind : RawSymbol → SymbolKind
  | .mk _ _ k _ _ _ => k

def RawSymbol.range : RawSymbol → Pos × Pos
  | .mk _ _ _ r _ _ => r

def RawSymbol.selectionRange : RawSymbol → Pos × Pos
  | .mk _ _ _ _ sr _ => sr

def RawSymbol.children : RawSymbol → List RawSymbol
  | .mk _ _ _ _ _ cs => cs

/-- A normalized `SourceSymbol`: name, recovered signature, detail, possibly
re-kinded kind, ranges and wrapped children. -/
inductive SSym where
  | mk (name signature detail : String) (kind : SymbolKind) (range selectionRange : Pos × Pos)
      (children : List SSym)

def SSym.name : SSym → String
  | .mk n _ _ _ _ _ _ => n

def SSym.signature : SSym → String
  | .mk _ sg _ _ _ _ _ => sg

def SSym.detail : SSym → String
  | .mk _ _ d _ _ _ _ => d

def SSym.kind : SSym → SymbolKind
  | .mk _ _ _ k _ _ _ => k

def SSym.range : SSym → Pos × Pos
  | .mk _ _ _ _ r _ _ => r

def SSym.selectionRange : SSym → Pos × Pos
  | .mk _ _ _ _ _ sr _ => sr

def SSym.children : SSym → List SSym
  | .mk _ _ _ _ _ _ cs => cs

/-- Modelled from the spec: `util.sortByRange` orders symbols by ascending
range start position. -/
def sortByRange (a b : RawSymbol) : Prop :=
  a.range.1 ≤ b.range.1

instance : DecidableRel sortByRange := fun a b =>
  inferInstanceAs (Decidable (a.range.1 ≤ b.range.1))

theorem Pos.le_total (a b : Pos) : a ≤ b ∨ b ≤ a := by
  rw [Pos.le_def, Pos.le_def]
  omega

instance : IsTotal RawSymbol sortByRange :=
  ⟨fun a b => Pos.le_total a.range.1 b.range.1⟩

instance : IsTrans RawSymbol sortByRange :=
  ⟨fun _ _ _ h1 h2 => Pos.le_trans h1 h2⟩

/-- `SourceSymbol.isClassOrStruct`. -/
def isClassOrStructKind (k : SymbolKind) : Bool :=
  k = .classK || k = .structK

/-- The `SourceSymbol` constructor applied recursively to a raw
`DocumentSymbol` (normalization step of the symbol tree).  `nn` models
`parse.getNormalizedSymbolName` (not part of the analysed sources; the spec
says only that it strips oracle-specific decorations, so it stays
abstract).  `pIsCS`/`pName` mirror `parent?.isClassOrStruct()` and
`parent.name` of the already-built parent. -/
def buildSourceSymbol (nn : String → String) (pIsCS : Bool) (pName : String) :
    RawSymbol → SSym
  | .mk rname rdetail rkind rrange rsel rchildren =>
    let detailHasSig := containsSub (rname ++ "(").data rdetail.data
    let kind2 := if detailHasSig && rkind = .propertyK then SymbolKind.methodK else rkind
    let signature :=
      if detailHasSig then rdetail
      else if pIsCS then pName ++ "::" ++ rname else rname
    let name := nn rname
    SSym.mk name signature rdetail kind2 rrange rsel
      ((List.insertionSort sortByRange rchildren).attach.map
        (fun c => buildSourceSymbol nn (isClassOrStructKind kind2) name c.1))
termination_by r => sizeOf r
decreasing_by
  have h2 := (List.perm_insertionSort sortByRange _).mem_iff.mp c.2
  have h3 := List.sizeOf_lt_of_mem h2
  simp
  omega

/-- Adjacent-pair ordering of a sibling list by range start
(non-decreasing). -/
def chainStartsLe : List SSym → Bool
  | a :: b :: rest => posLeB a.range.1 b.range.1 && chainStartsLe (b :: rest)
  | _ => true

mutual

/-- Every node's children are in non-decreasing range-start order. -/
def sortedTreeB : SSym → Bool
  | .mk _ _ _ _ _ _ cs => chainStartsLe cs && sortedForestB cs

def sortedForestB : List SSym → Bool
  | [] => true
  | c :: rest => sortedTreeB c && sortedForestB rest

end

/-- Range containment of a child in its parent's range. -/
def childContainedB (parentRange : Pos × Pos) (c : SSym) : Bool :=
  posLeB parentRange.1 c.range.1 && posLeB c.range.2 parentRange.2

mutual

/-- Every child's range is contained in its parent's range, hereditarily. -/
def containedTreeB : SSym → Bool
  | .mk _ _ _ _ r _ cs => cs.all (childContainedB r) && containedForestB cs

def containedForestB : List SSym → Bool
  | [] => true
  | c :: rest => containedTreeB c && containedForestB rest

end

/-- Range containment on the raw provider tree. -/
def rawChildContainedB (parentRange : Pos × Pos) (c : RawSymbol) : Bool :=
  decide (parentRange.1 ≤ c.range.1) && decide (c.range.2 ≤ parentRange.2)

mutual

def rawContainedTreeB : RawSymbol → Bool
  | .mk _ _ _ r _ cs => cs.all (rawChildContainedB r) && rawContainedForestB cs

def rawContainedForestB : List RawSymbol → Bool
  | [] => true
  | c :: rest => rawContainedTreeB c && rawContainedForestB rest

end

theorem buildSourceSymbol_range (nn : String → String) (pcs : Bool) (pn : String)
    (r : RawSymbol) : (buildSourceSymbol nn pcs pn r).range = r.range := by
  cases r
  rw [buildSourceSymbol]
  rfl

theorem buildSourceSymbol_children (nn : String → String) (pcs : Bool) (pn : String)
    (n d : String) (k : SymbolKind) (rg sr : Pos × Pos) (cs : List RawSymbol) :
    (buildSourceSymbol nn pcs pn (.mk n d k rg sr cs)).children =
      (List.insertionSort sortByRange cs).map
        (buildSourceSymbol nn
          (isClassOrStructKind
            (if containsSub (n ++ "(").data d.data && k = .propertyK then SymbolKind.methodK
             else k))
          (nn n)) := by
  rw [buildSourceSymbol]
  simp only [SSym.children]
  exact List.attach_map_val _ _

theorem chainStartsLe_map (g : RawSymbol → SSym) (hg : ∀ x, (g x).range = x.range) :
    ∀ l : List RawSymbol, l.Pairwise sortByRange → chainStartsLe (l.map g) = true := by
  intro l
  induction l with
  | nil => intro _; rfl
  | cons a rest ih =>
    intro hp
    cases rest with
    | nil => rfl
    | cons b rest2 =>
      rw [List.map_cons, List.map_cons, chainStartsLe]
      have hab : sortByRange a b := (List.pairwise_cons.mp hp).1 b (by simp)
      have h1 : posLeB (g a).range.1 (g b).range.1 = true := by
        rw [hg, hg]
        exact decide_eq_true hab
      rw [h1]
      have h2 := ih (List.pairwise_cons.mp hp).2
      rw [List.map_cons] at h2
      simpa using h2

theorem sortedForestB_map (g : RawSymbol → SSym) :
    ∀ l : List RawSymbol, (∀ c ∈ l, sortedTreeB (g c) = true) → sortedForestB (l.map g) = true := by
  intro l
  induction l with
  | nil => intro _; rfl
  | cons a rest ih =>
    intro h
    rw [List.map_cons, sortedForestB]
    rw [h a (by simp), ih (fun c hc => h c (by simp [hc]))]
    rfl

theorem sortedTreeB_eq (s : SSym) :
    sortedTreeB s = (chainStartsLe s.children && sortedForestB s.children) := by
  cases s
  rw [sortedTreeB]
  rfl

theorem sortedTreeB_buildSourceSymbol_aux :
    ∀ (N : Nat) (r : RawSymbol), sizeOf r ≤ N → ∀ (nn : String → String) (pcs : Bool) (pn : String),
      sortedTreeB (buildSourceSymbol nn pcs pn r) = true := by
  intro N
  induction N with
  | zero =>
    intro r h
    cases r
    simp at h
  | succ N ih =>
    intro r h nn pcs pn
    cases r with
    | mk n d k rg sr cs =>
      obtain ⟨P, hch⟩ :
          ∃ p, (buildSourceSymbol nn pcs pn (RawSymbol.mk n d k rg sr cs)).children =
            (List.insertionSort sortByRange cs).map (buildSourceSymbol nn p (nn n)) :=
        ⟨_, buildSourceSymbol_children nn pcs pn n d k rg sr cs⟩
      rw [sortedTreeB_eq, hch]
      have hA := chainStartsLe_map (buildSourceSymbol nn P (nn n))
        (fun x => buildSourceSymbol_range nn P (nn n) x)
        (List.insertionSort sortByRange cs)
        (List.sorted_insertionSort sortByRange cs)
      have hB := sortedForestB_map (buildSourceSymbol nn P (nn n))
        (List.insertionSort sortByRange cs) (fun c hc => by
          have hmem : c ∈ cs := (List.perm_insertionSort sortByRange cs).mem_iff.mp hc
          have hsz : sizeOf c < sizeOf (RawSymbol.mk n d k rg sr cs) := by
            have := List.sizeOf_lt_of_mem hmem
            simp
            omega
          exact ih c (by simp at h hsz ⊢; omega) nn P (nn n))
      rw [hA, hB]
      rfl

theorem containedTreeB_eq (s : SSym) :
    containedTreeB s = (s.children.all (childContainedB s.range) && containedForestB s.children) := by
  cases s
  rw [containedTreeB]
  rfl

theorem rawContainedTreeB_eq (r : RawSymbol) :
    rawContainedTreeB r =
      (r.children.all (rawChildContainedB r.range) && rawContainedForestB r.children) := by
  cases r
  rw [rawContainedTreeB]
  rfl

theorem rawContainedForestB_mem :
    ∀ (l : List RawSymbol), rawContainedForestB l = true → ∀ c ∈ l, rawContainedTreeB c = true := by
  intro l
  induction l with
  | nil => intro _ c hc; simp at hc
  | cons a rest ih =>
    intro h c hc
    rw [rawContainedForestB] at h
    rcases Bool.and_eq_true_iff.mp h with ⟨h1, h2⟩
    rcases List.mem_cons.mp hc with hc | hc
    · exact hc ▸ h1
    · exact ih h2 c hc

theorem containedForestB_map (g : RawSymbol → SSym) :
    ∀ l : List RawSymbol, (∀ c ∈ l, containedTreeB (g c) = true) →
      containedForestB (l.map g) = true := by
  intro l
  induction l with
  | nil => intro _; rfl
  | cons a rest ih =>
    intro h
    rw [List.map_cons, containedForestB]
    rw [h a (by simp), ih (fun c hc => h c (by simp [hc]))]
    rfl

theorem childContainedB_build (nn : String → String) (pcs : Bool) (pn : String)
    (rg : Pos × Pos) (c : RawSymbol) :
    childContainedB rg (buildSourceSymbol nn pcs pn c) = rawChildContainedB rg c := by
  unfold childContainedB rawChildContainedB posLeB
  rw [buildSourceSymbol_range]

theorem containedTreeB_buildSourceSymbol_aux :
    ∀ (N : Nat) (r : RawSymbol), sizeOf r ≤ N → ∀ (nn : String → String) (pcs : Bool) (pn : String),
      rawContainedTreeB r = true → containedTreeB (buildSourceSymbol nn pcs pn r) = true := by
  intro N
  induction N with
  | zero =>
    intro r h
    cases r
    simp at h
  | succ N ih =>
    intro r h nn pcs pn hraw
    cases r with
    | mk n d k rg sr cs =>
      rw [rawContainedTreeB_eq] at hraw
      simp only [RawSymbol.children, RawSymbol.range] at hraw
      rcases Bool.and_eq_true_iff.mp hraw with ⟨hraw1, hraw2⟩
      obtain ⟨P, hch⟩ :
          ∃ p, (buildSourceSymbol nn pcs pn (RawSymbol.mk n d k rg sr cs)).children =
            (List.insertionSort sortByRange cs).map (buildSourceSymbol nn p (nn n)) :=
        ⟨_, buildSourceSymbol_children nn pcs pn n d k rg sr cs⟩
      rw [containedTreeB_eq, hch, buildSourceSymbol_range]
      simp only [RawSymbol.range]
      have hA : ((List.insertionSort sortByRange cs).map (buildSourceSymbol nn P (nn n))).all
          (childContainedB rg) = true := by
        rw [List.all_eq_true]
        intro x hx
        rcases List.mem_map.mp hx with ⟨c, hc, hcx⟩
        have hmem : c ∈ cs := (List.perm_insertionSort sortByRange cs).mem_iff.mp hc
        rw [← hcx, childContainedB_build]
        exact List.all_eq_true.mp hraw1 c hmem
      have hB : containedForestB
          ((List.insertionSort sortByRange cs).map (buildSourceSymbol nn P (nn n))) = true := by
        apply containedForestB_map
        intro c hc
        have hmem : c ∈ cs := (List.perm_insertionSort sortByRange cs).mem_iff.mp hc
        have hsz : sizeOf c < sizeOf (RawSymbol.mk n d k rg sr cs) := by
          have := List.sizeOf_lt_of_mem hmem
          simp
          omega
        exact ih c (by simp at h hsz ⊢; omega) nn P (nn n)
          (rawContainedForestB_mem cs hraw2 c hmem)
      rw [hA, hB]
      rfl

/-- Index (from the start) of the last occurrence of a character. -/
def lastIdxOfChar (l : List Char) (ch : Char) : Option Nat :=
  match (l.reverse.findIdx? (fun c => c = ch)) with
  | some j => some (l.length - 1 - j)
  | none => none

/-- Match of the regex `template\s*<.+>` anchored at the head of the list
(the word boundary before `template` is checked by the caller); returns the
match length.  `.` does not match a newline, and `.+>` matches greedily up
to the last `>` of the non-newline run, with at least one character between
the angle brackets. -/
def templateMatchLen (l : List Char) : Option Nat :=
  if ("template".data).isPrefixOf l then
    let rest := l.drop 8
    let ws := (rest.takeWhile isSpaceChar).length
    if (rest.drop ws).head? = some '<' then
      let run := (rest.drop (ws + 1)).takeWhile (fun c => c ≠ '\n')
      match lastIdxOfChar run '>' with
      | some j => if 1 ≤ j then some (8 + ws + 1 + j + 1) else none
      | none => none
    else none
  else none

theorem templateMatchLen_pos {l : List Char} {m : Nat} (h : templateMatchLen l = some m) :
    1 ≤ m := by
  unfold templateMatchLen at h
  split at h
  · simp only at h
    split at h
    · split at h
      · split at h
        · cases h; omega
        · cases h
      · cases h
    · cases h
  · cases h

/-- Scan for all matches of `/\btemplate\s*<.+>/g` (as `matchAll` does,
resuming after each match) and keep the index of the last one.  After a
match the preceding character is `>`, which is not a word character, so the
scan resumes with the word-boundary flag cleared.  The scan is driven by a
character-count fuel: every step consumes at least one character (a match
length is positive by `templateMatchLen_pos`), so the list length is
enough. -/
def lastTemplateIdxGo : Nat → Bool → Nat → List Char → Option Nat → Option Nat
  | 0, _, _, _, acc => acc
  | fuel + 1, prevIsWord, i, l, acc =>
    match l with
    | [] => acc
    | c :: rest =>
      if prevIsWord then lastTemplateIdxGo fuel (isWordChar c) (i + 1) rest acc
      else
        match templateMatchLen (c :: rest) with
        | some m => lastTemplateIdxGo fuel false (i + m) ((c :: rest).drop m) (some i)
        | none => lastTemplateIdxGo fuel (isWordChar c) (i + 1) rest acc

def lastTemplateIdx (l : List Char) : Option Nat :=
  lastTemplateIdxGo l.length false 0 l none

theorem lastTemplateIdxGo_bound :
    ∀ (fuel : Nat) (l : List Char) (p : Bool) (i : Nat) (acc : Option Nat) (j : Nat),
      lastTemplateIdxGo fuel p i l acc = some j → acc = some j ∨ (i ≤ j ∧ j < i + l.length) := by
  intro fuel
  induction fuel with
  | zero =>
    intro l p i acc j hres
    rw [lastTemplateIdxGo] at hres
    exact Or.inl hres
  | succ fuel ih =>
    intro l p i acc j hres
    cases l with
    | nil =>
      rw [lastTemplateIdxGo] at hres
      exact Or.inl hres
    | cons c rest =>
      simp only [lastTemplateIdxGo] at hres
      by_cases hp : p
      · rw [if_pos hp] at hres
        rcases ih rest _ _ _ _ hres with h | h
        · exact Or.inl h
        · right
          simp only [List.length_cons]
          omega
      · rw [if_neg hp] at hres
        split at hres
        · rename_i m hm
          rcases ih ((c :: rest).drop m) _ _ _ _ hres with h | h
          · injection h with h
            subst h
            right
            simp only [List.length_cons]
            omega
          · right
            have hd : ((c :: rest).drop m).length = (c :: rest).length - m := by
              simp
            simp only [List.length_cons] at hd ⊢
            omega
        · rcases ih rest _ _ _ _ hres with h | h
          · exact Or.inl h
          · right
            simp only [List.length_cons]
            omega

theorem lastTemplateIdx_bound {l : List Char} {j : Nat} (h : lastTemplateIdx l = some j) :
    j < l.length := by
  rcases lastTemplateIdxGo_bound l.length l false 0 none j h with h2 | h2
  · cases h2
  · omega

/-- Leftmost match index of `/\s*{/` in a character list. -/
def matchWsLBraceIdxGo (i : Nat) : List Char → Option Nat
  | [] => none
  | c :: rest =>
    if ((c :: rest).dropWhile isSpaceChar).head? = some lbraceChar then some i
    else matchWsLBraceIdxGo (i + 1) rest

def matchWsLBraceIdx (l : List Char) : Option Nat :=
  matchWsLBraceIdxGo 0 l

/-- Leftmost match index of `/\s*:(?!:)/` in a character list: a whitespace
run, then a colon not followed by another colon. -/
def matchWsColonIdxGo (i : Nat) : List Char → Option Nat
  | [] => none
  | c :: rest =>
    match (c :: rest).dropWhile isSpaceChar with
    | ':' :: r2 =>
      if r2.head? = some ':' then matchWsColonIdxGo (i + 1) rest else some i
    | _ => matchWsColonIdxGo (i + 1) rest

def matchWsColonIdx (l : List Char) : Option Nat :=
  matchWsColonIdxGo 0 l

def startsWithColonColon : List Char → Bool
  | ':' :: ':' :: _ => true
  | _ => false

def endsWithColonColon (l : List Char) : Bool :=
  startsWithColonColon l.reverse

/-- Length of the identifier run `[\w_][\w\d_]*` at the head of the list. -/
def identLen (l : List Char) : Nat :=
  (l.takeWhile isWordChar).length

/-- The negative lookbehind `(?<!::\s*|[\w\d_])` of `re_beginingOfScopeString`,
over a reversed prefix: the position fails when the preceding character is a
word character, or when the preceding text ends with `::` followed by
whitespace. -/
def scopeLookbehindFails (rev : List Char) : Bool :=
  (match rev.head? with
   | some c => isWordChar c
   | none => false)
  || startsWithColonColon (rev.dropWhile isSpaceChar)

/-- Scan for the last match of
`re_beginingOfScopeString = /(?<!::\s*|[\w\d_])[\w_][\w\d_]*(?=\s*::)/g`:
an identifier (not preceded by a word character or a `::` with trailing
whitespace) that is followed by optional whitespace and `::`.  The reversed
already-scanned prefix is carried for the lookbehind; after a match the scan
resumes at the end of the identifier. -/
def lastScopeBeginGo : Nat → List Char → List Char → Nat → Option Nat → Option Nat
  | 0, _, _, _, acc => acc
  | fuel + 1, rev, rem, i, acc =>
    match rem with
    | [] => acc
    | c :: rest =>
      if isWordChar c then
        if !scopeLookbehindFails rev
            && startsWithColonColon
              (((c :: rest).drop (identLen (c :: rest))).dropWhile isSpaceChar) then
          lastScopeBeginGo fuel (((c :: rest).take (identLen (c :: rest))).reverse ++ rev)
            ((c :: rest).drop (identLen (c :: rest)))
            (i + identLen (c :: rest)) (some i)
        else lastScopeBeginGo fuel (c :: rev) rest (i + 1) acc
      else lastScopeBeginGo fuel (c :: rev) rest (i + 1) acc

def lastScopeBeginIdx (l : List Char) : Option Nat :=
  lastScopeBeginGo l.length [] l 0 none

/-- First keyword of the list that matches at the head with a word boundary
after it; returns the full match length of `\bkeyword\b\s*` together with
whether the whitespace run was empty. -/
def kwHit (words : List (List Char)) (l : List Char) : Option (Nat × Bool) :=
  match words with
  | [] => none
  | w :: ws =>
    if !w.isEmpty && w.isPrefixOf l
        && !(((l.drop w.length).head?).elim false (fun c => isWordChar c)) then
      let wsLen := ((l.drop w.length).takeWhile isSpaceChar).length
      some (w.length + wsLen, wsLen = 0)
    else kwHit ws l

theorem kwHit_pos :
    ∀ (words : List (List Char)) (l : List Char) (n : Nat) (b : Bool),
      kwHit words l = some (n, b) → 1 ≤ n := by
  intro words
  induction words with
  | nil => intro l n b h; simp [kwHit] at h
  | cons w ws ih =>
    intro l n b h
    rw [kwHit] at h
    split at h
    · rename_i hcond
      simp only [Bool.and_eq_true, Bool.not_eq_true'] at hcond
      injection h with h
      injection h with h1 h2
      have hw : w.isEmpty = false := hcond.1.1
      have : 1 ≤ w.length := by
        cases w
        · simp [List.isEmpty] at hw
        · simp
      omega
    · exact ih l n b h

/-- Removal of all matches of `/\b(kw1|kw2|…)\b\s*/g`, as
`String.prototype.replace` with an empty replacement: scan left to right,
delete each match, resume after it; the word-boundary flag reflects the
character preceding the current position in the original string. -/
def stripKeywordsWsGo (words : List (List Char)) : Nat → Bool → List Char → List Char
  | 0, _, l => l
  | _ + 1, _, [] => []
  | fuel + 1, prevWord, c :: rest =>
    if prevWord then c :: stripKeywordsWsGo words fuel (isWordChar c) rest
    else
      match kwHit words (c :: rest) with
      | some (n, wsEmpty) => stripKeywordsWsGo words fuel wsEmpty ((c :: rest).drop n)
      | none => c :: stripKeywordsWsGo words fuel (isWordChar c) rest

def stripKeywordsWs (words : List (List Char)) (l : List Char) : List Char :=
  stripKeywordsWsGo words l.length false l

/-- Removal of all matches of `/^\s+/gm` (`String.prototype.replace` with an
empty replacement): at each line start, the maximal whitespace run (which
may span further newlines) is deleted. -/
def stripLineStartWsGo : Nat → Bool → List Char → List Char
  | 0, _, l => l
  | _ + 1, _, [] => []
  | fuel + 1, atStart, c :: rest =>
    if atStart && isSpaceChar c then stripLineStartWsGo fuel false (rest.dropWhile isSpaceChar)
    else c :: stripLineStartWsGo fuel (c = '\n') rest

def stripLineStartWs (l : List Char) : List Char :=
  stripLineStartWsGo l.length true l

/-- Match of `/\s*\b(override|final)\b/` anchored at the head: a greedy
whitespace run, then one of the keywords at word boundaries; `prevWord`
tells whether the character before the head is a word character (for the
boundary when the whitespace run is empty). -/
def ovFinalFits (prevWord : Bool) (wsLen : Nat) (r w : List Char) : Bool :=
  w.isPrefixOf r && !(((r.drop w.length).head?).elim false (fun c => isWordChar c))
    && (!(wsLen = 0) || !prevWord)

def ovFinalMatchLen (prevWord : Bool) (l : List Char) : Option Nat :=
  if ovFinalFits prevWord ((l.takeWhile isSpaceChar).length)
      (l.drop ((l.takeWhile isSpaceChar).length)) ("override".data) then
    some ((l.takeWhile isSpaceChar).length + 8)
  else if ovFinalFits prevWord ((l.takeWhile isSpaceChar).length)
      (l.drop ((l.takeWhile isSpaceChar).length)) ("final".data) then
    some ((l.takeWhile isSpaceChar).length + 5)
  else none

theorem ovFinalMatchLen_pos {p : Bool} {l : List Char} {n : Nat}
    (h : ovFinalMatchLen p l = some n) : 1 ≤ n := by
  unfold ovFinalMatchLen at h
  split at h
  · injection h with h; omega
  · split at h
    · injection h with h; omega
    · cases h

/-- Removal of all matches of `/\s*\b(override|final)\b/g`; after a match
the character before the resume point is the keyword's last letter, a word
character. -/
def stripOvFinalGo : Nat → Bool → List Char → List Char
  | 0, _, l => l
  | _ + 1, _, [] => []
  | fuel + 1, prevWord, c :: rest =>
    match ovFinalMatchLen prevWord (c :: rest) with
    | some n => stripOvFinalGo fuel true ((c :: rest).drop n)
    | none => c :: stripOvFinalGo fuel (isWordChar c) rest

def stripOvFinal (l : List Char) : List Char :=
  stripOvFinalGo l.length false l

/-- Removal of a single trailing semicolon, modelling `replace(/;$/, '')`. -/
def stripTrailingSemi (l : List Char) : List Char :=
  match l.getLast? with
  | some ';' => l.dropLast
  | _ => l

/-- The multi-line alignment replacement
`new RegExp('^' + ' '.repeat(n), 'gm')` → `' '.repeat(m)`: at each line
start, a run of exactly `n` leading spaces (empty when `n = 0`) is replaced
by `m` spaces. -/
def alignReplace (n m : Nat) (l : List Char) : List Char :=
  joinNl ((splitOnNl l).map
    (fun line =>
      if (List.replicate n ' ').isPrefixOf line then List.replicate m ' ' ++ line.drop n
      else line))

/-- A document-bound `CSymbol`.  The parent link is flattened into the data
the methods consult: the parent's name and whether it is a class or struct.
The `range` field already carries the constructor's statement-end
extension. -/
structure CSym where
  name : String
  signature : String
  detail : String
  kind : SymbolKind
  range : Pos × Pos
  selectionRange : Pos × Pos
  parentName : Option String
  parentIsClassOrStruct : Bool

/-- The `CSymbol` constructor: copies the `SourceSymbol` data and extends
the range end past trailing semicolons
(`this.range = this.range.with(…, util.getEndOfStatement(document, range.end))`). -/
def mkCSym (lines : List String) (s : SSym) (parentName : Option String)
    (parentIsCS : Bool) : CSym :=
  ⟨s.name, s.signature, s.detail, s.kind, (s.range.1, getEndOfStatement lines s.range.2),
    s.selectionRange, parentName, parentIsCS⟩

/-- `CSymbol.text()`. -/
def csymText (lines : List String) (c : CSym) : List Char :=
  getTextL lines c.range.1 c.range.2

/-- `CSymbol.parsableText`: the symbol's text with comments masked. -/
def csymParsableText (lines : List String) (c : CSym) : List Char :=
  maskComments false (csymText lines c)

/-- `CSymbol.leadingText()`: text before the selection range. -/
def csymLeadingText (lines : List String) (c : CSym) : List Char :=
  getTextL lines c.range.1 c.selectionRange.1

/-- `SourceSymbol.isFunction()`. -/
def isFunctionKind (k : SymbolKind) : Bool :=
  k = .operatorK || k = .methodK || k = .constructorK || k = .functionK

/-- The self-scoped constructor signature test
`/^(?<name>[\w_][\w\d_]*)::\k<name>/.test(signature)`.  The identifier run
is maximal (a shorter candidate would be followed by a word character, not
a colon), then `::`, then the same identifier as a prefix of the rest. -/
def ctorSigTest (l : List Char) : Bool :=
  let n := identLen l
  !(n = 0) && startsWithColonColon (l.drop n) && (l.take n).isPrefixOf (l.drop (n + 2))

/-- `SourceSymbol.isConstructor()`: the symbol's kind is constructor, method
or function, and its name equals the parent's name or its signature is
self-scoped. -/
def isConstructorSym (c : CSym) : Bool :=
  (c.kind = SymbolKind.constructorK || c.kind = SymbolKind.methodK
      || c.kind = SymbolKind.functionK)
    && ((match c.parentName with
         | some pn => c.name = pn
         | none => false)
      || ctorSigTest c.signature.data)

/-- `CSymbol.isFunctionDeclaration()`: a function whose oracle detail says
"declaration" or whose comment-masked text does not end with a closing
brace. -/
def isFunctionDeclarationB (lines : List String) (c : CSym) : Bool :=
  isFunctionKind c.kind
    && (c.detail = "declaration" || !((csymParsableText lines c).getLast? = some rbraceChar))

/-- `CSymbol.isFunctionDefinition()`. -/
def isFunctionDefinitionB (lines : List String) (c : CSym) : Bool :=
  isFunctionKind c.kind && !isFunctionDeclarationB lines c

/-- `CSymbol.isPointer()`: the leading text, with block comments removed and
angle-bracket groups masked, contains a `*`. -/
def isPointerB (lines : List String) (c : CSym) : Bool :=
  (maskAngleBrackets (removeBlockComments (csymLeadingText lines c))).contains '*'

/-- `CSymbol.getTrueStart()`: when the comment/quote/angle-masked text
before the symbol ends (after trimming) with `>`, the start of the last
`template<…>` clause before the symbol; `if (!lastMatch?.index)` also sends
a match at index 0 back to `range.start`. -/
def getTrueStartM (lines : List String) (start : Pos) : Pos :=
  let beforeText := getTextL lines ⟨0, 0⟩ start
  let masked := trimEndL (maskAngleBrackets (maskQuotes (maskComments false beforeText)))
  if masked.getLast? = some '>' then
    match lastTemplateIdx masked with
    | some i => if i = 0 then start else positionAt lines i
    | none => start
  else start

/-- `CSymbol.scopeStringStart()`: when the comment-masked leading text ends
with `::`, the start of the scope string (last match of
`re_beginingOfScopeString`); otherwise the selection range start. -/
def scopeStringStartM (lines : List String) (c : CSym) : Pos :=
  let maskedLeading := trimEndL (maskComments false (csymLeadingText lines c))
  if endsWithColonColon maskedLeading then
    match lastScopeBeginIdx maskedLeading with
    | some i => positionAt lines (offsetAt lines c.range.1 + i)
    | none => c.selectionRange.1
  else c.selectionRange.1

/-- `CSymbol.bodyStart(declaration?)`: the first `{` (with preceding
whitespace) after the name in the quote/parenthesis-masked text, or, for a
constructor, the start of the member-initializer list.  The source's falsy
checks `if (!bodyStartIndex)` and `if (!initializerIndex)` also treat
matches at index 0 as absent. -/
def bodyStartM (lines : List String) (c : CSym) (declIsCtor : Bool) : Pos :=
  let masked := maskParentheses (maskQuotes (csymParsableText lines c))
  let startOffset := offsetAt lines c.range.1
  let nameEndIndex := offsetAt lines c.selectionRange.2 - startOffset
  match matchWsLBraceIdx (masked.drop nameEndIndex) with
  | none => c.range.2
  | some bodyStartIndex =>
    if bodyStartIndex = 0 then c.range.2
    else if !isConstructorSym c && !declIsCtor then
      positionAt lines (startOffset + nameEndIndex + bodyStartIndex)
    else
      match matchWsColonIdx ((masked.drop nameEndIndex).take bodyStartIndex) with
      | none => positionAt lines (startOffset + nameEndIndex + bodyStartIndex)
      | some initializerIndex =>
        if initializerIndex = 0 then
          positionAt lines (startOffset + nameEndIndex + bodyStartIndex)
        else positionAt lines (startOffset + nameEndIndex + initializerIndex)

/-- The strip loop of `CSymbol.stripDefaultValues`, walking the split masked
pieces while slicing the unmasked parameter text by offsets. -/
def stripDefaultValuesGo (parameters : List Char) : List (List Char) → Nat → List Char
  | [], _ => []
  | p :: ps, charPos =>
    (if p.contains '=' then
      trimEndL (substringJS parameters charPos (charPos + (idxOfChar p '=').getD 0)) ++ [',']
     else substringJS parameters charPos (charPos + p.length) ++ [','])
      ++ stripDefaultValuesGo parameters ps (charPos + p.length + 1)

/-- `CSymbol.stripDefaultValues(parameters)`: masks everything that might
contain commas or equals signs, splits on commas, and removes each
parameter's default value from its `=` on; the final trailing comma is cut. -/
def stripDefaultValuesM (parameters : List Char) : List Char :=
  let masked := maskComparisonOperators (maskBrackets (maskBraces (maskAngleBrackets
    (maskParentheses (maskQuotes (maskComments false parameters))))))
  (stripDefaultValuesGo parameters (splitOnCharL ',' masked) 0).dropLast

/-- String version of `stripDefaultValues`. -/
def stripDefaultValues (parameters : String) : String :=
  String.mk (stripDefaultValuesM parameters.data)

/-- `CSymbol.formatDeclarationForNewDefinition(targetDoc, position)`.  The
asynchronous scope-string resolution (`SourceSymbol.scopeString`, not part
of the analysed sources) is passed in as the resolved `scopeString`; the
target document's end-of-line marker is modelled as a single newline. -/
def formatDeclarationForNewDefinition (lines : List String) (c : CSym)
    (scopeString : String) : String :=
  let trueStart := getTrueStartM lines c.range.1
  let declaration := stripTrailingSemi (getTextL lines trueStart (bodyStartM lines c false))
  let masked := maskParentheses (maskQuotes (maskComments false declaration))
  let nameEndIndex := offsetAt lines c.selectionRange.2 - offsetAt lines trueStart
  let paramStartIndex : Int :=
    (match idxOfCharFrom masked '(' nameEndIndex with
     | some j => (j : Int)
     | none => -1) + 1
  let paramEndIndex : Int :=
    match idxOfChar masked ')' with
    | some j => (j : Int)
    | none => -1
  if paramStartIndex = -1 || paramEndIndex = -1 then ""
  else
    let parameters :=
      stripDefaultValuesM (substringJS declaration paramStartIndex.toNat paramEndIndex.toNat)
    let leadingText0 := getTextL lines trueStart (scopeStringStartM lines c)
    let line := lineTextAt lines c.range.1.line
    let leadingIndent := (line.takeWhile isSpaceChar).length
    let alignLength := ((splitOnNl leadingText0).getLastD []).length
    let leadingText1 :=
      stripLineStartWs (stripKeywordsWs
        ["virtual".data, "static".data, "explicit".data, "friend".data] leadingText0)
    let definition0 :=
      c.name.data ++ '(' :: (parameters ++ ')' ::
        substringFromJS declaration (paramEndIndex.toNat + 1))
    let definition1 :=
      alignReplace (leadingIndent + alignLength) (alignLength + scopeString.length) definition0
    String.mk (stripOvFinal (leadingText1 ++ scopeString.data ++ definition1))

/-- `CSymbol.newFunctionDeclaration()`: for a function definition, the text
from the true start to the body start, trimmed, with `;` appended; empty
otherwise. -/
def newFunctionDeclaration (lines : List String) (c : CSym) : String :=
  if isFunctionDefinitionB lines c then
    String.mk (trimEndL (getTextL lines (getTrueStartM lines c.range.1) (bodyStartM lines c false))
      ++ [';'])
  else ""

/-- A proposed position with its placement options. -/
structure PPos where
  value : Pos
  before : Bool
  after : Bool
  nextTo : Bool
  emptyScope : Bool
deriving DecidableEq

/-- Test of `line.text.trim().match(/^#include\s*(<.+>)|(".+")$/)`: either
the trimmed line starts with `#include`, optional whitespace and a `<…>`
group, or it ends with a `"…"` group (the alternation binds this way). -/
def includeLineTest (s : String) : Bool :=
  let t := trimL s.data
  (("#include".data).isPrefixOf t &&
    (match (t.drop 8).dropWhile isSpaceChar with
     | '<' :: tail => (tail.drop 1).contains '>'
     | _ => false))
  || (match t.reverse with
      | c :: rest => c = dquoteChar && (rest.drop 1).contains dquoteChar
      | [] => false)

/-- Test of `line.text.match(/<.+>/)`. -/
def hasLtGt : List Char → Bool
  | '<' :: c :: rest => rest.contains '>' || hasLtGt (c :: rest)
  | _ :: rest => hasLtGt rest
  | [] => false

/-- Test of `line.text.match(/".+"/)`: two quotes with at least one
character between them. -/
def hasQuotePair : List Char → Bool
  | c :: c2 :: rest =>
    if c = dquoteChar then (c2 :: rest).drop 1 |>.contains dquoteChar else hasQuotePair (c2 :: rest)
  | _ => false

/-- State of the include-block scan in
`SourceDocument.findPositionForNewInclude`. -/
structure IncState where
  sysStart : Option Pos
  projStart : Option Pos
  largestSys : Option (Pos × Pos)
  largestProj : Option (Pos × Pos)

/-- The `largestBlock` helper of `findPositionForNewInclude`.  The source
computes `(!largest || r > largest) ? r : largest`, comparing two
`vscode.Range` objects with `>`; both coerce to the string
"[object Object]", so the comparison is always false and the first
recorded block is kept forever. -/
def largestBlockM (lineStart blockStart : Pos) (largest : Option (Pos × Pos)) : Pos × Pos :=
  match largest with
  | none => (blockStart, lineStart)
  | some l => l

/-- The per-line scan of `findPositionForNewInclude`. -/
def incLoop : Nat → IncState → List String → IncState
  | _, st, [] => st
  | i, st, line :: rest =>
    let st' :=
      if !includeLineTest line then
        if st.sysStart.isSome then
          ⟨none, st.projStart,
            some (largestBlockM ⟨i, 0⟩ (st.sysStart.getD ⟨0, 0⟩) st.largestSys), st.largestProj⟩
        else if st.projStart.isSome then
          ⟨st.sysStart, none, st.largestSys,
            some (largestBlockM ⟨i, 0⟩ (st.projStart.getD ⟨0, 0⟩) st.largestProj)⟩
        else st
      else if hasLtGt line.data then
        let sys' := if st.sysStart.isNone then some (Pos.mk i 0) else st.sysStart
        if st.projStart.isSome then
          ⟨sys', none, st.largestSys,
            some (largestBlockM ⟨i, 0⟩ (st.projStart.getD ⟨0, 0⟩) st.largestProj)⟩
        else ⟨sys', st.projStart, st.largestSys, st.largestProj⟩
      else if hasQuotePair line.data then
        let proj' := if st.projStart.isNone then some (Pos.mk i 0) else st.projStart
        if st.sysStart.isSome then
          ⟨none, proj',
            some (largestBlockM ⟨i, 0⟩ (st.sysStart.getD ⟨0, 0⟩) st.largestSys), st.largestProj⟩
        else ⟨st.sysStart, proj', st.largestSys, st.largestProj⟩
      else st
    incLoop (i + 1) st' rest

/-- Upward scan for the last non-blank line at or below a start line
(`for (let i = startLineNum; i >= 0; --i) … if (!line.isEmptyOrWhitespace)`),
returning that line's range end. -/
def scanUpNonEmpty (lines : List String) : Nat → Option Pos
  | 0 =>
    match lines.get? 0 with
    | some s => if !(s.data.all isSpaceChar) then some ⟨0, s.length⟩ else none
    | none => none
  | i + 1 =>
    match lines.get? (i + 1) with
    | some s =>
      if !(s.data.all isSpaceChar) then some ⟨i + 1, s.length⟩ else scanUpNonEmpty lines i
    | none => scanUpNonEmpty lines i

/-- `SourceDocument.findPositionForNewInclude`: returns the recommended
system-include and project-include positions. -/
def findPositionForNewInclude (lines : List String) (symbols : List SSym) : Pos × Pos :=
  let st := incLoop 0 ⟨none, none, none, none⟩ lines
  let sysP1 : Option Pos := if st.largestSys.isSome then st.largestSys.map Prod.snd else none
  let projP1 : Option Pos := if st.largestSys.isSome && st.largestProj.isNone then sysP1 else none
  let projP2 : Option Pos := if st.largestProj.isSome then st.largestProj.map Prod.snd else projP1
  let sysP2 : Option Pos := if st.largestProj.isSome && st.largestSys.isNone then projP2 else sysP1
  match sysP2, projP2 with
  | some sp, some pp => (sp, pp)
  | _, _ =>
    let startLineNum :=
      match symbols with
      | [] => lines.length - 1
      | s :: _ => s.range.1.line
    match scanUpNonEmpty lines startLineNum with
    | some p => (p, p)
    | none => (⟨0, 0⟩, ⟨0, 0⟩)

/-- A navigation-oracle location: a file identifier and a start position. -/
structure Loc where
  uriPath : String
  start : Pos
deriving DecidableEq

/-- Environment of one `findPositionForFunctionDefinition` request: the
declaration's document data and the external collaborators (navigation
oracle `findDef`, target-document symbol retrieval `getSym`, and
`findMatchingSymbol` for the namespace fallback). -/
structure FPEnv where
  declUriPath : String
  thisUriPath : String
  targetUriPath : String
  thisSymbols : List SSym
  declParentChildren : Option (List SSym)
  declRange : Pos × Pos
  declScopes : List SSym
  targetSymbols : List SSym
  targetLines : List String
  findDef : SSym → Option Loc
  getSym : Pos → Option SSym
  findMatching : SSym → Option SSym

/-- The declaration's sibling list: its parent's children, or the
document's top-level symbols. -/
def fpdSiblings (e : FPEnv) : List SSym :=
  match e.declParentChildren with
  | some cs => cs
  | none => e.thisSymbols

/-- Index of the declaration among its siblings (first range-equal symbol;
the list length when absent). -/
def fpdIndex (e : FPEnv) : Nat :=
  (fpdSiblings e).findIdx (fun s => decide (s.range = e.declRange))

/-- The up-to-5 siblings before the declaration, in document order
(`siblingSymbols.slice(max(i-5,0), i)`). -/
def fpdBefore (e : FPEnv) : List SSym :=
  ((fpdSiblings e).take (fpdIndex e)).drop (fpdIndex e - 5)

/-- The up-to-5 siblings after the declaration
(`siblingSymbols.slice(i+1, min(i+6, length))`). -/
def fpdAfter (e : FPEnv) : List SSym :=
  ((fpdSiblings e).drop (fpdIndex e + 1)).take 5

/-- The before-sibling probe loop: finds each sibling's definition, skips
misses, locations outside the target document, and locations whose symbol
cannot be retrieved; on the first full hit returns the position after the
definition's statement end (the retrieved symbol is wrapped as a `CSymbol`,
so its end is already statement-extended, and `getEndOfStatement` is
applied once more). -/
def probeBefore (e : FPEnv) : List SSym → Option PPos
  | [] => none
  | s :: rest =>
    match e.findDef s with
    | none => probeBefore e rest
    | some loc =>
      if loc.uriPath ≠ e.targetUriPath then probeBefore e rest
      else
        match e.getSym loc.start with
        | none => probeBefore e rest
        | some d =>
          some ⟨getEndOfStatement e.targetLines (getEndOfStatement e.targetLines d.range.2),
            false, true, false, false⟩

/-- The after-sibling probe loop: like `probeBefore` but proposing the
position before the found definition's start. -/
def probeAfter (e : FPEnv) : List SSym → Option PPos
  | [] => none
  | s :: rest =>
    match e.findDef s with
    | none => probeAfter e rest
    | some loc =>
      if loc.uriPath ≠ e.targetUriPath then probeAfter e rest
      else
        match e.getSym loc.start with
        | none => probeAfter e rest
        | some d => some ⟨d.range.1, true, false, false, false⟩

/-- The namespace fallback: walks the enclosing scopes innermost-first,
looks for a matching namespace in the target document, and proposes a
position inside it. -/
def probeNamespaces (e : FPEnv) : List SSym → Option PPos
  | [] => none
  | scope :: rest =>
    if scope.kind = SymbolKind.namespaceK then
      match e.findMatching scope with
      | none => probeNamespaces e rest
      | some ns =>
        match ns.children.getLast? with
        | none =>
          let nsEndExt := getEndOfStatement e.targetLines ns.range.2
          let text := getTextL e.targetLines ns.range.1 nsEndExt
          let bodyStart :=
            match idxOfChar text lbraceChar with
            | some j => offsetAt e.targetLines ns.range.1 + j + 1
            | none => offsetAt e.targetLines ns.range.1
          some ⟨positionAt e.targetLines bodyStart, false, true, true, true⟩
        | some lastChild =>
          some ⟨getEndOfStatement e.targetLines lastChild.range.2, false, true, false, false⟩
    else probeNamespaces e rest

/-- `SourceDocument.findPositionForFunctionDefinition(declaration,
targetDoc)`.  `none` models the out-of-bounds access of the final fallback
on an empty target symbol list (unreachable after the empty-target early
return). -/
def findPositionForFunctionDefinition (e : FPEnv) : Option PPos :=
  if e.declUriPath != e.thisUriPath || (e.declParentChildren.isNone && e.thisSymbols.isEmpty) then
    some ⟨⟨0, 0⟩, false, false, false, false⟩
  else if e.targetSymbols.isEmpty then
    match scanUpNonEmpty e.targetLines (e.targetLines.length - 1) with
    | some p => some ⟨p, false, true, false, false⟩
    | none => some ⟨⟨0, 0⟩, false, false, false, false⟩
  else
    match probeBefore e (fpdBefore e).reverse with
    | some r => some r
    | none =>
      match probeAfter e (fpdAfter e) with
      | some r => some r
      | none =>
        match probeNamespaces e e.declScopes.reverse with
        | some r => some r
        | none =>
          match e.targetSymbols.getLast? with
          | some last =>
            some ⟨getEndOfStatement e.targetLines last.range.2, false, true, false, false⟩
          | none => none

/-- Word-presence test `/\bword\b/.test(text)`. -/
def hasWordGo (w : List Char) (prev : Bool) : List Char → Bool
  | [] => false
  | c :: rest =>
    (!prev && w.isPrefixOf (c :: rest)
      && !((((c :: rest).drop w.length).head?).elim false (fun ch => isWordChar ch)))
    || hasWordGo w (isWordChar c) rest

def hasWord (w : List Char) (l : List Char) : Bool :=
  hasWordGo w false l

/-- A generated setter (`Setter`); `name` comes from
`memberVariable.setterName()`, which is not part of the analysed sources
and is passed in. -/
structure SetterM where
  name : String
  isStatic : Bool
  returnType : String
  parameter : String
  body : String

/-- `Setter.create(memberVariable)`: the private constructor's fields, then
`isStatic` from the leading text and the parameter, pass-by-value when the
member is primitive or a pointer and a const reference otherwise.  The
asynchronous `isPrimitive()` oracle result is passed in as `isPrim`. -/
def setterCreate (lines : List String) (member : CSym) (isPrim : Bool)
    (setterName : String) : SetterM :=
  let leadingText := csymLeadingText lines member
  let type := stripKeywordsWs ["static".data, "mutable".data] leadingText
  ⟨setterName,
    hasWord ("static".data) leadingText,
    "void ",
    String.mk ((if !isPrim && !isPointerB lines member then
        "const ".data ++ type ++ ['&']
      else type) ++ "value".data),
    member.name ++ " = value;"⟩

/-- Outcome of one `updateSignature` run: the user-facing alert (if any),
whether a replace edit was added to the workspace edit, whether the edit
batch was handed to the edit sink, and the returned value. -/
structure UpdateOutcome where
  alert : Option String
  editConstructed : Bool
  applyCalled : Bool
  result : Option Bool

/-- `updateSignature(currentFunction, sourceDoc, linkedLocation)`: the
symbol found at the linked location is `linked` (with its own document
lines); the `FunctionSignature` comparison data (not part of the analysed
sources) and the edit sink's reply are passed in. -/
def updateSignature (lines linkedLines : List String) (current : CSym)
    (linked : Option CSym) (curNormRet linkNormRet : String) (applyOk : Bool) :
    UpdateOutcome :=
  match linked with
  | none =>
    if isFunctionDeclarationB lines current then
      ⟨some "The linked definition could not be found.", false, false, none⟩
    else ⟨some "The linked declaration could not be found.", false, false, none⟩
  | some lf =>
    if isFunctionDeclarationB lines current then
      if !isFunctionDefinitionB linkedLines lf || lf.name ≠ current.name then
        ⟨some "The linked definition could not be found.", false, false, none⟩
      else ⟨none, decide (curNormRet ≠ linkNormRet), true, some applyOk⟩
    else
      if !isFunctionDeclarationB linkedLines lf || lf.name ≠ current.name then
        ⟨some "The linked declaration could not be found.", false, false, none⟩
      else ⟨none, decide (curNormRet ≠ linkNormRet), true, some applyOk⟩

theorem offsetAtL_zero_zero (lines : List String) : offsetAtL lines 0 0 = 0 := by
  cases lines with
  | nil => rfl
  | cons s rest =>
    cases rest with
    | nil => simp [offsetAtL]
    | cons s2 rest2 => simp [offsetAtL]

theorem Pos.lt_irrefl (p : Pos) : ¬(p < p) := by
  rw [Pos.lt_def]
  omega

/-- The masked text before a symbol is no longer than that position's
offset. -/
theorem maskedBefore_length_le (lines : List String) (p : Pos) :
    (trimEndL (maskAngleBrackets (maskQuotes
      (maskComments false (getTextL lines ⟨0, 0⟩ p))))).length ≤ offsetAt lines p := by
  have h1 := trimEndL_length_le (maskAngleBrackets (maskQuotes
    (maskComments false (getTextL lines ⟨0, 0⟩ p))))
  rw [maskAngleBrackets_length, maskQuotes_length, maskComments_length] at h1
  have h2 : (getTextL lines ⟨0, 0⟩ p).length ≤ offsetAt lines p := by
    unfold getTextL
    have h3 : offsetAt lines (⟨0, 0⟩ : Pos) = 0 := offsetAtL_zero_zero lines
    rw [h3]
    simp
  omega

/-- The recognized template-clause start of `getTrueStart`: the masked text
before the symbol ends with `>` and the last `template<…>` match begins at a
positive index (a clause at document offset 0 is not recognized because of
the source's falsy check on the match index). -/
def recognizedTemplateStart (lines : List String) (p : Pos) : Option Nat :=
  let masked := trimEndL (maskAngleBrackets (maskQuotes
    (maskComments false (getTextL lines ⟨0, 0⟩ p))))
  if masked.getLast? = some '>' then
    match lastTemplateIdx masked with
    | some i => if i = 0 then none else some i
    | none => none
  else none

theorem getTrueStartM_eq_recognized (lines : List String) (p : Pos) :
    getTrueStartM lines p =
      (match recognizedTemplateStart lines p with
       | some i => positionAt lines i
       | none => p) := by
  unfold getTrueStartM recognizedTemplateStart
  simp only
  split
  · split
    · split
      · rfl
      · rfl
    · rfl
  · rfl

theorem recognizedTemplateStart_lt {lines : List String} {p : Pos} {i : Nat}
    (h : recognizedTemplateStart lines p = some i) : positionAt lines i < p := by
  unfold recognizedTemplateStart at h
  simp only at h
  split at h
  · split at h
    · rename_i j hj
      split at h
      · cases h
      · injection h with h
        subst h
        have hb := lastTemplateIdx_bound hj
        have hle := maskedBefore_length_le lines p
        unfold offsetAt at hle
        exact positionAt_lt_of_lt_offsetAtL lines _ p.line p.character (by omega)
    · cases h
  · cases h

/-- The amended `getTrueStart` bound: the result never exceeds the range
start, and is strictly before it exactly when a template-clause start is
recognized. -/
theorem getTrueStartM_le (lines : List String) (p : Pos) : getTrueStartM lines p ≤ p := by
  rw [getTrueStartM_eq_recognized]
  cases h : recognizedTemplateStart lines p with
  | none => exact Pos.le_refl p
  | some i =>
    simp only
    exact Pos.lt_imp_le (recognizedTemplateStart_lt h)

theorem getTrueStartM_lt_iff (lines : List String) (p : Pos) :
    getTrueStartM lines p < p ↔ (recognizedTemplateStart lines p).isSome = true := by
  rw [getTrueStartM_eq_recognized]
  cases h : recognizedTemplateStart lines p with
  | none =>
    simp only [Option.isSome_none]
    constructor
    · intro hlt
      exact absurd hlt (Pos.lt_irrefl p)
    · intro hfalse
      cases hfalse
  | some i =>
    simp only [Option.isSome_some]
    constructor
    · intro _
      trivial
    · intro _
      exact recognizedTemplateStart_lt h

/-- A sibling probe succeeds when the oracle locates its definition in the
target document and the symbol at that location can be retrieved. -/
def fullHitB (e : FPEnv) (s : SSym) : Bool :=
  match e.findDef s with
  | some loc => loc.uriPath = e.targetUriPath && (e.getSym loc.start).isSome
  | none => false

/-- The proposed position a single before-sibling hit determines. -/
def beforeHitPP (e : FPEnv) (s : SSym) : Option PPos :=
  probeBefore e [s]

/-- The proposed position a single after-sibling hit determines. -/
def afterHitPP (e : FPEnv) (s : SSym) : Option PPos :=
  probeAfter e [s]

theorem probeBefore_cons_nohit {e : FPEnv} {s : SSym} (rest : List SSym)
    (h : fullHitB e s = false) : probeBefore e (s :: rest) = probeBefore e rest := by
  cases hd : e.findDef s with
  | none => simp only [probeBefore, hd]
  | some loc =>
    simp only [fullHitB, hd, Bool.and_eq_false_iff] at h
    simp only [probeBefore, hd]
    by_cases hp : loc.uriPath = e.targetUriPath
    · rw [if_neg (not_not_intro hp)]
      rcases h with h | h
      · exact absurd (decide_eq_true hp) (by simp [h])
      · cases hg : e.getSym loc.start with
        | none => simp only [hg]
        | some d => rw [hg] at h; simp at h
    · rw [if_pos hp]

theorem probeBefore_cons_hit {e : FPEnv} {s : SSym} (rest : List SSym)
    (h : fullHitB e s = true) : probeBefore e (s :: rest) = beforeHitPP e s := by
  unfold beforeHitPP
  cases hd : e.findDef s with
  | none => simp [fullHitB, hd] at h
  | some loc =>
    simp only [fullHitB, hd, Bool.and_eq_true] at h
    have hp : loc.uriPath = e.targetUriPath := of_decide_eq_true h.1
    simp only [probeBefore, hd]
    rw [if_neg (not_not_intro hp), if_neg (not_not_intro hp)]
    cases hg : e.getSym loc.start with
    | none => rw [hg] at h; simp at h
    | some d => simp only [hg]

theorem probeBefore_none_of_all {e : FPEnv} :
    ∀ (l : List SSym), (∀ x ∈ l, fullHitB e x = false) → probeBefore e l = none := by
  intro l
  induction l with
  | nil => intro _; rfl
  | cons s rest ih =>
    intro h
    rw [probeBefore_cons_nohit rest (h s (by simp))]
    exact ih (fun x hx => h x (by simp [hx]))

theorem probeBefore_append {e : FPEnv} :
    ∀ (pre : List SSym) (s : SSym) (post : List SSym),
      (∀ x ∈ pre, fullHitB e x = false) → fullHitB e s = true →
      probeBefore e (pre ++ s :: post) = beforeHitPP e s := by
  intro pre
  induction pre with
  | nil => intro s post _ hs; exact probeBefore_cons_hit post hs
  | cons a pre2 ih =>
    intro s post h hs
    rw [List.cons_append, probeBefore_cons_nohit _ (h a (by simp))]
    exact ih s post (fun x hx => h x (by simp [hx])) hs

theorem probeAfter_cons_nohit {e : FPEnv} {s : SSym} (rest : List SSym)
    (h : fullHitB e s = false) : probeAfter e (s :: rest) = probeAfter e rest := by
  cases hd : e.findDef s with
  | none => simp only [probeAfter, hd]
  | some loc =>
    simp only [fullHitB, hd, Bool.and_eq_false_iff] at h
    simp only [probeAfter, hd]
    by_cases hp : loc.uriPath = e.targetUriPath
    · rw [if_neg (not_not_intro hp)]
      rcases h with h | h
      · exact absurd (decide_eq_true hp) (by simp [h])
      · cases hg : e.getSym loc.start with
        | none => simp only [hg]
        | some d => rw [hg] at h; simp at h
    · rw [if_pos hp]

theorem probeAfter_cons_hit {e : FPEnv} {s : SSym} (rest : List SSym)
    (h : fullHitB e s = true) : probeAfter e (s :: rest) = afterHitPP e s := by
  unfold afterHitPP
  cases hd : e.findDef s with
  | none => simp [fullHitB, hd] at h
  | some loc =>
    simp only [fullHitB, hd, Bool.and_eq_true] at h
    have hp : loc.uriPath = e.targetUriPath := of_decide_eq_true h.1
    simp only [probeAfter, hd]
    rw [if_neg (not_not_intro hp), if_neg (not_not_intro hp)]
    cases hg : e.getSym loc.start with
    | none => rw [hg] at h; simp at h
    | some d => simp only [hg]

theorem probeAfter_append {e : FPEnv} :
    ∀ (pre : List SSym) (s : SSym) (post : List SSym),
      (∀ x ∈ pre, fullHitB e x = false) → fullHitB e s = true →
      probeAfter e (pre ++ s :: post) = afterHitPP e s := by
  intro pre
  induction pre with
  | nil => intro s post _ hs; exact probeAfter_cons_hit post hs
  | cons a pre2 ih =>
    intro s post h hs
    rw [List.cons_append, probeAfter_cons_nohit _ (h a (by simp))]
    exact ih s post (fun x hx => h x (by simp [hx])) hs

/-- Shape of the position a full hit determines: an after-marked position
past the found definition's statement end (whose following character is
never a semicolon) for a before-sibling, and a before-marked position at
the definition's start for an after-sibling. -/
theorem fullHit_shape {e : FPEnv} {s : SSym} (h : fullHitB e s = true) :
    ∃ loc d, e.findDef s = some loc ∧ loc.uriPath = e.targetUriPath ∧
      e.getSym loc.start = some d ∧
      beforeHitPP e s =
        some ⟨getEndOfStatement e.targetLines (getEndOfStatement e.targetLines d.range.2),
          false, true, false, false⟩ ∧
      afterHitPP e s = some ⟨d.range.1, true, false, false, false⟩ ∧
      charAt e.targetLines
        (getEndOfStatement e.targetLines (getEndOfStatement e.targetLines d.range.2))
        ≠ some ';' := by
  cases hd : e.findDef s with
  | none => simp [fullHitB, hd] at h
  | some loc =>
    simp only [fullHitB, hd, Bool.and_eq_true] at h
    have hp : loc.uriPath = e.targetUriPath := of_decide_eq_true h.1
    cases hg : e.getSym loc.start with
    | none => rw [hg] at h; simp at h
    | some d =>
      refine ⟨loc, d, rfl, hp, hg, ?_, ?_, ?_⟩
      · unfold beforeHitPP
        simp only [probeBefore, hd]
        rw [if_neg (not_not_intro hp)]
        simp only [hg]
      · unfold afterHitPP
        simp only [probeAfter, hd]
        rw [if_neg (not_not_intro hp)]
        simp only [hg]
      · exact charAt_getEndOfStatement e.targetLines (getEndOfStatement e.targetLines d.range.2)

/-- Spec-side predicate for C3, following the spec's words: a `template
<…>` clause immediately precedes the symbol (modulo comments, quotes and
whitespace) when the masked text before the symbol, trimmed of trailing
whitespace, ends with a complete template clause. -/
def hasTemplateSuffixGo : List Char → Bool
  | [] => false
  | c :: rest =>
    (match templateMatchLen (c :: rest) with
     | some m => m = (c :: rest).length
     | none => false)
    || hasTemplateSuffixGo rest

def templateImmediatelyPrecedes (lines : List String) (p : Pos) : Bool :=
  hasTemplateSuffixGo (trimEndL (maskAngleBrackets (maskQuotes
    (maskComments false (getTextL lines ⟨0, 0⟩ p)))))

/-- Spec-side setter-parameter shape for C8, following the claim's words:
pass-by-value (the stripped type text followed by the parameter name) for a
primitive or pointer member, else a const reference `const <Type>&`. -/
def setterParameterSpec (typeText : List Char) (isPrim isPtr : Bool) : String :=
  if isPrim || isPtr then String.mk (typeText ++ "value".data)
  else String.mk ("const ".data ++ typeText ++ '&' :: "value".data)

/-- The C9 mismatch condition, exactly as `updateSignature` tests it: the
linked symbol is absent, lacks the complementary role, or has a different
name. -/
def linkMismatch (lines linkedLines : List String) (current : CSym)
    (linked : Option CSym) : Bool :=
  match linked with
  | none => true
  | some lf =>
    if isFunctionDeclarationB lines current then
      !isFunctionDefinitionB linkedLines lf || lf.name ≠ current.name
    else
      !isFunctionDeclarationB linkedLines lf || lf.name ≠ current.name

/-- `CSymbol.getFullText()`: the text of the full range, from the true
start (including a template preamble) to the extended range end. -/
def csymGetFullText (lines : List String) (c : CSym) : List Char :=
  getTextL lines (getTrueStartM lines c.range.1) c.range.2

/-- Concrete data for C1: a header with three top-level siblings.  The
nearest before-sibling's definition is located in the target document, but
no symbol is retrievable at that location; the after-sibling fully
resolves. -/
def c1ExS1 : SSym :=
  SSym.mk "s1" "s1" "" SymbolKind.functionK (⟨0, 0⟩, ⟨0, 5⟩) (⟨0, 0⟩, ⟨0, 2⟩) []

def c1ExDecl : SSym :=
  SSym.mk "decl" "decl" "" SymbolKind.functionK (⟨1, 0⟩, ⟨1, 5⟩) (⟨1, 0⟩, ⟨1, 2⟩) []

def c1ExA1 : SSym :=
  SSym.mk "a1" "a1" "" SymbolKind.functionK (⟨2, 0⟩, ⟨2, 5⟩) (⟨2, 0⟩, ⟨2, 2⟩) []

def c1ExD0 : SSym :=
  SSym.mk "a1" "a1" "" SymbolKind.functionK (⟨20, 0⟩, ⟨20, 5⟩) (⟨20, 0⟩, ⟨20, 2⟩) []

def c1ExEnv : FPEnv :=
  ⟨"H", "H", "T", [c1ExS1, c1ExDecl, c1ExA1], none, (⟨1, 0⟩, ⟨1, 5⟩), [], [c1ExD0], [],
    fun s => if s.name = "s1" then some ⟨"T", ⟨10, 0⟩⟩
             else if s.name = "a1" then some ⟨"T", ⟨20, 0⟩⟩ else none,
    fun p => if p = ⟨20, 0⟩ then some c1ExD0 else none,
    fun _ => none⟩

/-- Concrete data for the C1 witness: a single before-sibling that fully
resolves in the target document, whose definition's end is followed by two
semicolons. -/
def c1WitB : SSym :=
  SSym.mk "b1" "b1" "" SymbolKind.functionK (⟨0, 0⟩, ⟨0, 5⟩) (⟨0, 0⟩, ⟨0, 2⟩) []

def c1WitDecl : SSym :=
  SSym.mk "decl" "decl" "" SymbolKind.functionK (⟨1, 0⟩, ⟨1, 5⟩) (⟨1, 0⟩, ⟨1, 2⟩) []

def c1WitD : SSym :=
  SSym.mk "b1" "b1" "" SymbolKind.functionK (⟨0, 0⟩, ⟨0, 5⟩) (⟨0, 0⟩, ⟨0, 2⟩) []

def c1WitEnv : FPEnv :=
  ⟨"H", "H", "T", [c1WitB, c1WitDecl], none, (⟨1, 0⟩, ⟨1, 5⟩), [], [c1WitD], ["int y;;"],
    fun s => if s.name = "b1" then some ⟨"T", ⟨0, 0⟩⟩ else none,
    fun p => if p = ⟨0, 0⟩ then some c1WitD else none,
    fun _ => none⟩

/-- Concrete data for C2: a raw provider tree whose child range lies
outside its parent's range (construction preserves ranges verbatim). -/
def c2BadRaw : RawSymbol :=
  RawSymbol.mk "A" "" SymbolKind.classK (⟨0, 0⟩, ⟨0, 5⟩) (⟨0, 0⟩, ⟨0, 1⟩)
    [RawSymbol.mk "b" "" SymbolKind.fieldK (⟨2, 0⟩, ⟨2, 3⟩) (⟨2, 0⟩, ⟨2, 1⟩) []]

/-- A raw tree with contained but unsorted children, for the C2 witness. -/
def c2GoodRaw : RawSymbol :=
  RawSymbol.mk "A" "" SymbolKind.classK (⟨0, 0⟩, ⟨5, 1⟩) (⟨0, 0⟩, ⟨0, 1⟩)
    [RawSymbol.mk "d" "" SymbolKind.fieldK (⟨3, 0⟩, ⟨4, 1⟩) (⟨3, 0⟩, ⟨3, 1⟩) [],
     RawSymbol.mk "c" "" SymbolKind.fieldK (⟨1, 0⟩, ⟨2, 1⟩) (⟨1, 0⟩, ⟨1, 1⟩) []]

/-- Concrete document for C3: a template clause at document offset 0
immediately preceding the symbol at character 18. -/
def c3Lines : List String := ["template<class T> void f();"]

/-- Concrete data for C4: a declaration (as reported by the oracle) whose
text contains a stray `)` but no `(` after the name. -/
def c4Lines : List String := ["int ) foo;"]

def c4Sym : CSym :=
  mkCSym c4Lines
    (SSym.mk "foo" "foo" "declaration" SymbolKind.functionK (⟨0, 0⟩, ⟨0, 9⟩) (⟨0, 6⟩, ⟨0, 9⟩) [])
    none false

def c4MaskedDecl : List Char :=
  maskParentheses (maskQuotes (maskComments false (stripTrailingSemi
    (getTextL c4Lines (getTrueStartM c4Lines c4Sym.range.1) (bodyStartM c4Lines c4Sym false)))))

/-- Concrete data for C5: the declaration `void foo(int x = 5);` and the
definition obtained from it. -/
def c5DeclLines : List String := ["void foo(int x = 5);"]

def c5DeclSym : CSym :=
  mkCSym c5DeclLines
    (SSym.mk "foo" "foo" "declaration" SymbolKind.functionK (⟨0, 0⟩, ⟨0, 19⟩) (⟨0, 5⟩, ⟨0, 8⟩) [])
    none false

def c5DefLines : List String := ["void foo(int x)", "\x7b", "\x7d"]

def c5DefSym : CSym :=
  mkCSym c5DefLines
    (SSym.mk "foo" "foo" "" SymbolKind.functionK (⟨0, 0⟩, ⟨2, 1⟩) (⟨0, 5⟩, ⟨0, 8⟩) [])
    none false

/-- Concrete document for C7: a one-line system-include block, a blank
line, a two-line system-include block, and a trailing blank line. -/
def c7Lines : List String :=
  ["#include <a>", "", "#include <b>", "#include <c>", ""]

/-- Concrete data for C9's witness: a function declaration whose linked
location yields no symbol. -/
def c9CurLines : List String := ["void f();"]

def c9Cur : CSym :=
  mkCSym c9CurLines
    (SSym.mk "f" "f" "declaration" SymbolKind.functionK (⟨0, 0⟩, ⟨0, 8⟩) (⟨0, 5⟩, ⟨0, 6⟩) [])
    none false

/-- Concrete data for C10's witness: a statement whose oracle-reported
range excludes two trailing semicolons. -/
def c10WitLines : List String := ["int x;;"]

def c10WitSym : SSym :=
  SSym.mk "x" "x" "" SymbolKind.variableK (⟨0, 0⟩, ⟨0, 5⟩) (⟨0, 4⟩, ⟨0, 5⟩) []

theorem findPositionForFunctionDefinition_main (e : FPEnv)
    (hpath : (e.declUriPath != e.thisUriPath
      || (e.declParentChildren.isNone && e.thisSymbols.isEmpty)) = false)
    (htarget : e.targetSymbols.isEmpty = false) :
    findPositionForFunctionDefinition e =
      (match probeBefore e (fpdBefore e).reverse with
       | some r => some r
       | none =>
         match probeAfter e (fpdAfter e) with
         | some r => some r
         | none =>
           match probeNamespaces e e.declScopes.reverse with
           | some r => some r
           | none =>
             match e.targetSymbols.getLast? with
             | some last =>
               some ⟨getEndOfStatement e.targetLines last.range.2, false, true, false, false⟩
             | none => none) := by
  unfold findPositionForFunctionDefinition
  rw [hpath, htarget]
  simp only [Bool.false_eq_true, if_false]

/-- C1 (counterexample).  The claim says the first before-sibling whose
definition the navigation oracle locates in the target document determines
the result as an 'after' position, and that after-siblings are probed only
when no before-sibling yields a hit.  Here the only before-sibling's
definition is located in the target document, yet the result is the
'before'-marked position derived from an after-sibling, because no symbol
is retrievable at the before-sibling's located position
(`targetDoc.getSymbol` returns undefined and the loop continues). -/
theorem c1_counterexample :
    findPositionForFunctionDefinition c1ExEnv =
        some ⟨⟨20, 0⟩, true, false, false, false⟩
      ∧ (fpdBefore c1ExEnv).map SSym.name = ["s1"]
      ∧ c1ExEnv.findDef c1ExS1 = some ⟨"T", ⟨10, 0⟩⟩
      ∧ (Loc.mk "T" ⟨10, 0⟩).uriPath = c1ExEnv.targetUriPath := by
  refine ⟨by decide, by decide, by decide, by decide⟩

/-- C1 (amended).  For a declaration in its own document with at least one
symbol (and a target document whose symbols are nonempty), the engine
considers at most 5 siblings on each side; the before-siblings are probed
nearest-first and the first *fully successful* probe — the oracle locates
the sibling's definition in the target document *and* a symbol is
retrievable there — determines the result, regardless of the candidates
beyond it: an 'after'-marked position past the found definition's
statement end (never followed by a semicolon).  Only if no before-sibling
fully succeeds are the after-siblings probed nearest-first, the first full
hit determining a 'before'-marked position at the found definition's
start. -/
theorem c1_sibling_search_amended (e : FPEnv)
    (hpath : (e.declUriPath != e.thisUriPath
      || (e.declParentChildren.isNone && e.thisSymbols.isEmpty)) = false)
    (htarget : e.targetSymbols.isEmpty = false) :
    ((fpdBefore e).length ≤ 5 ∧ (fpdAfter e).length ≤ 5)
    ∧ (∀ pre s post, (fpdBefore e).reverse = pre ++ s :: post →
        (∀ x ∈ pre, fullHitB e x = false) → fullHitB e s = true →
        findPositionForFunctionDefinition e = beforeHitPP e s)
    ∧ ((∀ x ∈ fpdBefore e, fullHitB e x = false) →
        ∀ pre s post, fpdAfter e = pre ++ s :: post →
        (∀ x ∈ pre, fullHitB e x = false) → fullHitB e s = true →
        findPositionForFunctionDefinition e = afterHitPP e s)
    ∧ (∀ s, fullHitB e s = true →
        ∃ loc d, e.findDef s = some loc ∧ loc.uriPath = e.targetUriPath ∧
          e.getSym loc.start = some d ∧
          beforeHitPP e s =
            some ⟨getEndOfStatement e.targetLines (getEndOfStatement e.targetLines d.range.2),
              false, true, false, false⟩ ∧
          afterHitPP e s = some ⟨d.range.1, true, false, false, false⟩ ∧
          charAt e.targetLines
            (getEndOfStatement e.targetLines (getEndOfStatement e.targetLines d.range.2))
            ≠ some ';') := by
  refine ⟨⟨?_, ?_⟩, ?_, ?_, fun s hs => fullHit_shape hs⟩
  · unfold fpdBefore
    simp
    omega
  · unfold fpdAfter
    simp
  · intro pre s post hdec hpre hhit
    have hPB : probeBefore e (fpdBefore e).reverse = beforeHitPP e s := by
      rw [hdec]
      exact probeBefore_append pre s post hpre hhit
    rw [findPositionForFunctionDefinition_main e hpath htarget, hPB]
    obtain ⟨loc, d, _, _, _, hB, _, _⟩ := fullHit_shape hhit
    rw [hB]
  · intro hnob pre s post hdec hpre hhit
    have hPB : probeBefore e (fpdBefore e).reverse = none :=
      probeBefore_none_of_all _ (fun x hx => hnob x (List.mem_reverse.mp hx))
    have hPA : probeAfter e (fpdAfter e) = afterHitPP e s := by
      rw [hdec]
      exact probeAfter_append pre s post hpre hhit
    rw [findPositionForFunctionDefinition_main e hpath htarget, hPB, hPA]
    obtain ⟨loc, d, _, _, _, _, hA, _⟩ := fullHit_shape hhit
    rw [hA]

theorem c1_sibling_search_amended_witness :
    findPositionForFunctionDefinition c1WitEnv =
      some ⟨⟨0, 7⟩, false, true, false, false⟩ := by
  have h := (c1_sibling_search_amended c1WitEnv (by decide) (by decide)).2.1
    [] c1WitB [] (by rfl) (by intro x hx; cases hx) (by decide)
  rw [h]
  decide

/-- C2 (counterexample).  The claim asserts that every symbol tree built by
the `SourceSymbol` constructor has each child's range contained in its
parent's range; construction copies the oracle's ranges verbatim, so a raw
tree violating containment yields a built tree violating it too. -/
theorem c2_counterexample :
    containedTreeB (buildSourceSymbol id false "" c2BadRaw) = false := by
  simp [buildSourceSymbol, containedTreeB, containedForestB, childContainedB, posLeB,
    List.insertionSort, List.orderedInsert, sortByRange, c2BadRaw, SSym.children,
    SSym.range, RawSymbol.range, Pos.le_def]

/-- C2 (amended).  Every symbol tree built from raw provider output has
each node's children sorted in non-decreasing order of range start; and
the built tree satisfies parent-child range containment whenever the raw
provider tree already does (construction preserves ranges verbatim, so
containment is preserved, not established). -/
theorem c2_normalized_tree_amended (nn : String → String) (pcs : Bool) (pn : String)
    (r : RawSymbol) :
    sortedTreeB (buildSourceSymbol nn pcs pn r) = true
    ∧ (rawContainedTreeB r = true → containedTreeB (buildSourceSymbol nn pcs pn r) = true) :=
  ⟨sortedTreeB_buildSourceSymbol_aux (sizeOf r) r (Nat.le_refl _) nn pcs pn,
   fun h => containedTreeB_buildSourceSymbol_aux (sizeOf r) r (Nat.le_refl _) nn pcs pn h⟩

theorem c2_normalized_tree_amended_witness :
    sortedTreeB (buildSourceSymbol id false "" c2GoodRaw) = true
    ∧ containedTreeB (buildSourceSymbol id false "" c2GoodRaw) = true :=
  ⟨(c2_normalized_tree_amended id false "" c2GoodRaw).1,
   (c2_normalized_tree_amended id false "" c2GoodRaw).2 (by
     simp [rawContainedTreeB, rawContainedForestB, rawChildContainedB, c2GoodRaw,
       RawSymbol.range, RawSymbol.children, Pos.le_def])⟩

/-- C3 (counterexample).  The claim's 'iff' fails: in this document a
template clause immediately precedes the symbol at character 18 (modulo
comments, quotes and whitespace), yet `getTrueStart` returns `range.start`
itself, because the clause starts at document offset 0 and the source's
`if (!lastMatch?.index)` treats a match index of 0 as no match. -/
theorem c3_counterexample :
    templateImmediatelyPrecedes c3Lines ⟨0, 18⟩ = true
      ∧ getTrueStartM c3Lines ⟨0, 18⟩ = ⟨0, 18⟩ := by
  refine ⟨by decide, by decide⟩

/-- C3 (amended).  `getTrueStart()` never exceeds `range.start`, and it is
strictly before `range.start` exactly when the comment/quote/angle-masked
text before the symbol ends (after trimming) with `>` and the last
`template<…>` match in it starts at a positive index — in particular a
template clause beginning at document offset 0 is not recognized. -/
theorem c3_true_start_amended (lines : List String) (p : Pos) :
    getTrueStartM lines p ≤ p
      ∧ (getTrueStartM lines p < p ↔ (recognizedTemplateStart lines p).isSome = true) :=
  ⟨getTrueStartM_le lines p, getTrueStartM_lt_iff lines p⟩

/-- C4 (code bug).  For this oracle-reported function declaration there is
no opening parenthesis after the name in the masked declaration text, so
the claim requires `formatDeclarationForNewDefinition` to return the empty
string; instead the code returns partial garbage text, because
`indexOf('(') + 1` turns the `-1` miss into `0` before the guard
`paramStartIndex === -1` tests it, making that guard unreachable. -/
theorem c4_dead_guard_eval :
    isFunctionDeclarationB c4Lines c4Sym = true
      ∧ idxOfCharFrom c4MaskedDecl '('
          (offsetAt c4Lines c4Sym.selectionRange.2
            - offsetAt c4Lines (getTrueStartM c4Lines c4Sym.range.1)) = none
      ∧ formatDeclarationForNewDefinition c4Lines c4Sym "" = "int ) foo(int ) foo"
      ∧ ¬(formatDeclarationForNewDefinition c4Lines c4Sym "" = "") := by
  refine ⟨by decide, by decide, by decide, by decide⟩

/-- C5.  Turning the declaration `void foo(int x = 5);` into a definition
via `formatDeclarationForNewDefinition` yields `void foo(int x)` — the
parameter keeps its type and name but loses the default value — and
applying `newFunctionDeclaration` to the resulting definition yields
`void foo(int x);`, preserving the non-default-valued parameter shape. -/
theorem c5_round_trip :
    formatDeclarationForNewDefinition c5DeclLines c5DeclSym "" = "void foo(int x)"
      ∧ newFunctionDeclaration c5DefLines c5DefSym = "void foo(int x);" := by
  refine ⟨by decide, by decide⟩

/-- C6.  `stripDefaultValues` on the spec's example removes each top-level
default value (from its `=` on), does not treat the comma inside the brace
group as a separator, and keeps the defaultless parameter verbatim. -/
theorem c6_strip_default_values :
    stripDefaultValues "int a = 1, std::vector<int> b = \x7b1,2\x7d, int c"
      = "int a, std::vector<int> b, int c" := by
  decide

/-- C7 (code bug).  On a file with a one-line system-include block followed
by a blank line and a two-line system-include block, the claim requires the
end of the larger (second) block; the code returns the end of the *first*
block, position (1,0), for both classifications, because `largestBlock`
compares two `vscode.Range` objects with `>` (always false for objects), so
the first recorded block is never replaced. -/
theorem c7_first_block_eval :
    findPositionForNewInclude c7Lines [] = (⟨1, 0⟩, ⟨1, 0⟩)
      ∧ ¬(findPositionForNewInclude c7Lines [] = (⟨4, 0⟩, ⟨4, 0⟩)) := by
  refine ⟨by decide, by decide⟩

/-- C8.  The setter parameter built by `Setter.create` is pass-by-value
(the member's leading type text with `static`/`mutable` stripped, followed
by the parameter name `value`) when the member is primitive or a pointer,
and a const reference `const <Type>&value` otherwise. -/
theorem c8_setter_parameter (lines : List String) (member : CSym) (isPrim : Bool)
    (sn : String) :
    (setterCreate lines member isPrim sn).parameter =
      setterParameterSpec
        (stripKeywordsWs ["static".data, "mutable".data] (csymLeadingText lines member))
        isPrim (isPointerB lines member) := by
  unfold setterCreate setterParameterSpec
  cases hp : isPointerB lines member <;> cases isPrim <;> simp [hp]

/-- C9.  Whenever the symbol at the linked location is absent, lacks the
complementary role, or has a different name, `updateSignature` raises a
user-facing alert and returns undefined without constructing or applying
any edit. -/
theorem c9_update_signature_mismatch (lines linkedLines : List String) (current : CSym)
    (linked : Option CSym) (cn ln : String) (ok : Bool)
    (h : linkMismatch lines linkedLines current linked = true) :
    (updateSignature lines linkedLines current linked cn ln ok).alert.isSome = true
      ∧ (updateSignature lines linkedLines current linked cn ln ok).editConstructed = false
      ∧ (updateSignature lines linkedLines current linked cn ln ok).applyCalled = false
      ∧ (updateSignature lines linkedLines current linked cn ln ok).result = none := by
  cases linked with
  | none =>
    simp only [updateSignature]
    by_cases hdecl : isFunctionDeclarationB lines current = true
    · rw [if_pos hdecl]
      exact ⟨rfl, rfl, rfl, rfl⟩
    · rw [if_neg hdecl]
      exact ⟨rfl, rfl, rfl, rfl⟩
  | some lf =>
    simp only [linkMismatch] at h
    simp only [updateSignature]
    by_cases hdecl : isFunctionDeclarationB lines current = true
    · rw [if_pos hdecl] at h ⊢
      rw [if_pos h]
      exact ⟨rfl, rfl, rfl, rfl⟩
    · rw [if_neg hdecl] at h ⊢
      rw [if_pos h]
      exact ⟨rfl, rfl, rfl, rfl⟩

theorem c9_update_signature_mismatch_witness :
    (updateSignature c9CurLines [] c9Cur none "int" "bool" true).alert.isSome = true
      ∧ (updateSignature c9CurLines [] c9Cur none "int" "bool" true).editConstructed = false
      ∧ (updateSignature c9CurLines [] c9Cur none "int" "bool" true).applyCalled = false
      ∧ (updateSignature c9CurLines [] c9Cur none "int" "bool" true).result = none :=
  c9_update_signature_mismatch c9CurLines [] c9Cur none "int" "bool" true (by decide)

/-- C10.  The `CSymbol` constructor extends the oracle-reported range end
past any immediately-following semicolons: the character after the
constructed range end is never a semicolon, `text()` is the raw range's
text followed by exactly those semicolons, `parsableText` covers the same
extended extent (masking is length-preserving), and `getFullText()` also
carries the trailing semicolons. -/
theorem c10_statement_end_extension (lines : List String) (s : SSym)
    (pn : Option String) (pcs : Bool)
    (hel : s.range.2.line < lines.length)
    (hec : s.range.2.character ≤ (lineTextAt lines s.range.2.line).length)
    (hse : s.range.1 ≤ s.range.2) :
    charAt lines (mkCSym lines s pn pcs).range.2 ≠ some ';'
      ∧ csymText lines (mkCSym lines s pn pcs) =
          getTextL lines s.range.1 s.range.2 ++
            List.replicate
              (countLeadingSemis ((lineTextAt lines s.range.2.line).drop s.range.2.character)) ';'
      ∧ (csymParsableText lines (mkCSym lines s pn pcs)).length
          = (csymText lines (mkCSym lines s pn pcs)).length
      ∧ csymGetFullText lines (mkCSym lines s pn pcs) =
          getTextL lines (getTrueStartM lines s.range.1) s.range.2 ++
            List.replicate
              (countLeadingSemis ((lineTextAt lines s.range.2.line).drop s.range.2.character)) ';' := by
  refine ⟨?_, ?_, ?_, ?_⟩
  · exact charAt_getEndOfStatement lines s.range.2
  · exact getTextL_extend_semis lines s.range.1 s.range.2 (offsetAt_mono hse) hel hec
  · unfold csymParsableText
    exact maskComments_length false _
  · unfold csymGetFullText
    have hts : getTrueStartM lines s.range.1 ≤ s.range.2 :=
      Pos.le_trans (getTrueStartM_le lines s.range.1) hse
    exact getTextL_extend_semis lines (getTrueStartM lines (mkCSym lines s pn pcs).range.1)
      s.range.2 (offsetAt_mono hts) hel hec

theorem c10_statement_end_extension_witness :
    charAt c10WitLines (mkCSym c10WitLines c10WitSym none false).range.2 ≠ some ';'
      ∧ csymText c10WitLines (mkCSym c10WitLines c10WitSym none false) = "int x;;".data := by
  have h := c10_statement_end_extension c10WitLines c10WitSym none false
    (by decide) (by decide) (by decide)
  refine ⟨h.1, ?_⟩
  rw [h.2.1]
  decide
